import Mathlib

/-!
# Verification of the question-bank HTML extractor (`parse_questions.py`)

This file shallowly embeds the extraction logic of `parse_questions.py`:

* the pure per-row question-text processing shared by both code paths
  (option markers `(N)`, the inline `正確答案為:N` answer marker, the
  line-splitting fallback, answer resolution);
* the BeautifulSoup-based path, modelled over an explicit DOM of table
  rows whose cells hold trees of text / `<br>` / `<span>` nodes;
* the regex fallback path, modelled over raw character lists, with the
  concrete regular expressions of the source implemented as deterministic
  scanners (each of the source's patterns is backtracking-free);
* a renderer from the DOM to markup text, used to compare the paths.

Python strings are modelled as `List Char` (Python string indices are
code-point indices, exactly list positions).  Whitespace is modelled as
the ASCII whitespace characters, the subset of Python's `str.strip` /
regex `\s` semantics exercised by the fixture format.
-/

namespace QParse

/-! ## Python string primitives -/

/-- ASCII whitespace, the subset of Python `str.isspace` and regex `\s`
relevant to the fixture format. -/
def pyWs (c : Char) : Bool :=
  c = ' ' || c = '\t' || c = '\n' || c = '\r' || c = '\x0b' || c = '\x0c'

/-- Python `str.lstrip()`. -/
def stripL (s : List Char) : List Char := s.dropWhile pyWs

/-- Python `str.rstrip()`. -/
def stripR (s : List Char) : List Char := (s.reverse.dropWhile pyWs).reverse

/-- Python `str.strip()`. -/
def strip (s : List Char) : List Char := stripR (stripL s)

theorem length_dropWhile_le {α : Type} (p : α → Bool) (l : List α) :
    (l.dropWhile p).length ≤ l.length := by
  induction l with
  | nil => simp [List.dropWhile]
  | cons c rest ih =>
    by_cases h : p c
    · simp only [List.dropWhile, h]
      exact Nat.le_succ_of_le ih
    · simp [List.dropWhile, h]

mutual
/-- Python `re.sub(r'\s+', ' ', s)`: collapse every maximal whitespace run
to a single space. -/
def collapseWs : List Char → List Char
  | [] => []
  | c :: rest =>
    if pyWs c then ' ' :: collapseWsSkip rest
    else c :: collapseWs rest
/-- Inside a whitespace run: drop the remaining whitespace, then resume. -/
def collapseWsSkip : List Char → List Char
  | [] => []
  | c :: rest =>
    if pyWs c then collapseWsSkip rest
    else c :: collapseWs rest
end

/-- Line-break characters recognised by Python `str.splitlines` that are
also ASCII whitespace (`\r\n` is handled as a single break). -/
def lineBreak (c : Char) : Bool :=
  c = '\n' || c = '\r' || c = '\x0b' || c = '\x0c'

/-- Python `str.splitlines()` (over the line-break characters above). -/
def splitLinesAux (cur : List Char) : List Char → List (List Char)
  | [] => if cur.isEmpty then [] else [cur.reverse]
  | '\r' :: '\n' :: rest => cur.reverse :: splitLinesAux [] rest
  | c :: rest =>
    if lineBreak c then cur.reverse :: splitLinesAux [] rest
    else splitLinesAux (c :: cur) rest

def splitLines (s : List Char) : List (List Char) := splitLinesAux [] s

/-- Python slice `s[a:b]`. -/
def slice (s : List Char) (a b : Nat) : List Char := (s.drop a).take (b - a)

/-- Does `pat` occur as a contiguous substring of `s`?  (Case-sensitive;
models `re.search` of a literal pattern returning a boolean.) -/
def containsSub (pat : List Char) : List Char → Bool
  | [] => pat.isEmpty
  | c :: rest => pat.isPrefixOf (c :: rest) || containsSub pat rest

/-! ## The regex fragments of the source, as deterministic scanners

Every regex in `parse_questions.py` is deterministic in the sense that
greedy matching never needs to backtrack (each `\s*` / optional item is
followed by a character class disjoint from it), so each is implemented
as a direct scanner.
-/

/-- `[1-4]`. -/
def isD14 (c : Char) : Bool := c = '1' || c = '2' || c = '3' || c = '4'

def d14val (c : Char) : Nat := c.toNat - '0'.toNat

/-- The literal `正確答案為`. -/
def ansLit : List Char := ['正', '確', '答', '案', '為']

/-- Match `正確答案為[:：]?\s*([1-4])` at the head of `s`; return the
captured digit value and the total match length. -/
def matchMarkerAt (s : List Char) : Option (Nat × Nat) :=
  if ansLit.isPrefixOf s then
    let r0 := s.drop 5
    let (cl, r1) : Nat × List Char :=
      match r0 with
      | ':' :: r => (1, r)
      | '：' :: r => (1, r)
      | r => (0, r)
    let k := (r1.takeWhile pyWs).length
    match r1.drop k with
    | c :: _ => if isD14 c then some (d14val c, 5 + cl + k + 1) else none
    | [] => none
  else none

/-- `re.search(r'正確答案為[:：]?\s*([1-4])', s)`: digit of the leftmost
match, if any. -/
def markerSearchD : List Char → Option Nat
  | [] => none
  | c :: rest =>
    match matchMarkerAt (c :: rest) with
    | some (d, _) => some d
    | none => markerSearchD rest

theorem matchMarkerAt_pos {s : List Char} {d len : Nat}
    (h : matchMarkerAt s = some (d, len)) : 0 < len := by
  unfold matchMarkerAt at h
  split at h
  · dsimp only at h
    split at h
    · split at h <;> simp_all <;> omega
    · exact absurd h (by simp)
  · exact absurd h (by simp)

/-- The scanning loop of `re.sub(r'正確答案為[:：]?\s*[1-4]', '', s)`:
`skip` counts characters of the current match still to be consumed. -/
def markerSubGo (skip : Nat) : List Char → List Char
  | [] => []
  | c :: rest =>
    match skip with
    | k + 1 => markerSubGo k rest
    | 0 =>
      match matchMarkerAt (c :: rest) with
      | some (_, len) => markerSubGo (len - 1) rest
      | none => c :: markerSubGo 0 rest

/-- `re.sub(r'正確答案為[:：]?\s*[1-4]', '', s)`: delete every
(leftmost-first, non-overlapping) match. -/
def markerSub (s : List Char) : List Char := markerSubGo 0 s

theorem markerSubGo_skip (k : Nat) (s : List Char) :
    markerSubGo k s = markerSubGo 0 (s.drop k) := by
  induction s generalizing k with
  | nil => cases k <;> rfl
  | cons c rest ih =>
    cases k with
    | zero => rfl
    | succ k' =>
      show markerSubGo k' rest = _
      rw [ih k']
      rfl

theorem markerSub_match {c : Char} {rest : List Char} {d len : Nat}
    (h : matchMarkerAt (c :: rest) = some (d, len)) :
    markerSub (c :: rest) = markerSub ((c :: rest).drop len) := by
  have hpos := matchMarkerAt_pos h
  show markerSubGo 0 (c :: rest) = _
  rw [show markerSubGo 0 (c :: rest) = markerSubGo (len - 1) rest by
    simp only [markerSubGo, h]]
  rw [markerSubGo_skip]
  have : (c :: rest).drop len = rest.drop (len - 1) := by
    cases len with
    | zero => omega
    | succ n => simp
  rw [this]
  rfl

theorem markerSub_nomatch {c : Char} {rest : List Char}
    (h : matchMarkerAt (c :: rest) = none) :
    markerSub (c :: rest) = c :: markerSub rest := by
  show markerSubGo 0 (c :: rest) = _
  simp only [markerSubGo, h]
  rfl

/-- Match `\(\s*([1-4])\s*\)` at the head of `s`; return digit value and
match length. -/
def matchOptAt : List Char → Option (Nat × Nat)
  | '(' :: r =>
    let k1 := (r.takeWhile pyWs).length
    match r.drop k1 with
    | c :: r2 =>
      if isD14 c then
        let k2 := (r2.takeWhile pyWs).length
        match r2.drop k2 with
        | ')' :: _ => some (d14val c, 1 + k1 + 1 + k2 + 1)
        | _ => none
      else none
    | [] => none
  | _ => none

theorem matchOptAt_pos {s : List Char} {d len : Nat}
    (h : matchOptAt s = some (d, len)) : 0 < len := by
  unfold matchOptAt at h
  split at h
  case _ r =>
    dsimp only at h
    split at h
    · split at h
      · split at h <;> simp_all <;> omega
      · exact absurd h (by simp)
    · exact absurd h (by simp)
  · exact absurd h (by simp)

/-- One option marker found by `re.finditer(r'\(\s*([1-4])\s*\)', ...)`:
start position, declared digit (1–4), and end position of the match. -/
structure OptMark where
  start : Nat
  dig : Nat
  stop : Nat
deriving Repr, DecidableEq

/-- The scanning loop of `re.finditer(r'\(\s*([1-4])\s*\)', ...)`:
leftmost-first, non-overlapping; `i` is the absolute position of the head
of the list, `skip` counts characters of the current match still to be
consumed. -/
def optMarkersGo (skip i : Nat) : List Char → List OptMark
  | [] => []
  | c :: r =>
    match skip with
    | k + 1 => optMarkersGo k (i + 1) r
    | 0 =>
      match matchOptAt (c :: r) with
      | some (d, len) => ⟨i, d, i + len⟩ :: optMarkersGo (len - 1) (i + 1) r
      | none => optMarkersGo 0 (i + 1) r

def optionMarkers (s : List Char) : List OptMark := optMarkersGo 0 0 s

theorem optMarkersGo_skip (k i : Nat) (s : List Char) :
    optMarkersGo k i s = optMarkersGo 0 (i + k) (s.drop k) := by
  induction s generalizing k i with
  | nil => cases k <;> rfl
  | cons c rest ih =>
    cases k with
    | zero => rfl
    | succ k' =>
      show optMarkersGo k' (i + 1) rest = _
      rw [ih k' (i + 1)]
      have : i + 1 + k' = i + (k' + 1) := by omega
      rw [this]
      rfl

theorem optMarkersGo_match {c : Char} {r : List Char} {d len : Nat} (i : Nat)
    (h : matchOptAt (c :: r) = some (d, len)) :
    optMarkersGo 0 i (c :: r) =
      ⟨i, d, i + len⟩ :: optMarkersGo 0 (i + len) ((c :: r).drop len) := by
  have hpos := matchOptAt_pos h
  rw [show optMarkersGo 0 i (c :: r) = ⟨i, d, i + len⟩ :: optMarkersGo (len - 1) (i + 1) r by
    simp only [optMarkersGo, h]]
  rw [optMarkersGo_skip]
  have h1 : i + 1 + (len - 1) = i + len := by omega
  have h2 : (c :: r).drop len = r.drop (len - 1) := by
    cases len with
    | zero => omega
    | succ n => simp
  rw [h1, h2]

theorem optMarkersGo_nomatch {c : Char} {r : List Char} (i : Nat)
    (h : matchOptAt (c :: r) = none) :
    optMarkersGo 0 i (c :: r) = optMarkersGo 0 (i + 1) r := by
  simp only [optMarkersGo, h]

/-- `re.search(r'([1-4])', s)`: value of the first character in `1`–`4`. -/
def firstD14 : List Char → Option Nat
  | [] => none
  | c :: rest => if isD14 c then some (d14val c) else firstD14 rest

/-! ## Shared per-row text processing (lines 96–123 = 172–197 of the source) -/

/-- One parsed question, the 6-tuple
`(q_title, options[0], options[1], options[2], options[3], answer_text)`
with the four option slots kept as a list. -/
structure QuestionRecord where
  title : List Char
  options : List (List Char)
  answer : List Char
deriving Repr, DecidableEq

/-- Pair each marker with the start of the next marker (or the total text
length for the last one): the right boundary of its option text. -/
def withNext (total : Nat) : List OptMark → List (OptMark × Nat)
  | [] => []
  | [m] => [(m, total)]
  | m :: m2 :: rest => (m, m2.start) :: withNext total (m2 :: rest)

/-- `opt = q_text[start:end].strip(); opt = re.sub(r'\s+', ' ', opt).strip()`. -/
def optSlice (q : List Char) (a b : Nat) : List Char :=
  strip (collapseWs (strip (slice q a b)))

def emptyOpts : List (List Char) := [[], [], [], []]

/-- One step of the option-assignment loop: write the marker's option
text (the slice from the end of the marker to the start of the next one)
into slot `dig - 1`. -/
def optStep (q : List Char) (opts : List (List Char)) (p : OptMark × Nat) :
    List (List Char) :=
  opts.set (p.1.dig - 1) (optSlice q p.1.stop p.2)

/-- The assignment loop over option markers: each marker writes its option
text into slot `dig - 1`; later markers overwrite earlier ones. -/
def assignOpts (q : List Char) (ms : List OptMark) : List (List Char) :=
  (withNext q.length ms).foldl (optStep q) emptyOpts

/-- Non-empty stripped lines:
`[p.strip() for p in q_text.splitlines() if p.strip()]`. -/
def neLines (q : List Char) : List (List Char) :=
  ((splitLines q).map strip).filter (fun p => !p.isEmpty)

/-- Lines 96–117 / 172–191: split the (already answer-marker-stripped)
question text into title and the four option slots. -/
def parseQuestionText (q : List Char) : List Char × List (List Char) :=
  match optionMarkers q with
  | [] =>
    let parts := neLines q
    if 5 ≤ parts.length then
      (parts.getD 0 [], [parts.getD 1 [], parts.getD 2 [], parts.getD 3 [], parts.getD 4 []])
    else (q, emptyOpts)
  | m :: rest =>
    (collapseWs (strip (q.take m.start)), assignOpts q (m :: rest))

/-- Lines 119–121 / 193–195: the answer text from the resolved index. -/
def mkAnswer (idx : Option Nat) (opts : List (List Char)) : List Char :=
  match idx with
  | some i => if 1 ≤ i ∧ i ≤ 4 then opts.getD (i - 1) [] else []
  | none => []

/-- Build the emitted record from the resolved answer index and the
question text with answer markers already removed. -/
def buildRecord (idx : Option Nat) (q2 : List Char) : QuestionRecord :=
  ⟨(parseQuestionText q2).1, (parseQuestionText q2).2,
    mkAnswer idx (parseQuestionText q2).2⟩

/-- `'題號'`, `'答案'`, `'題目'`: does the cell text equal a header label? -/
def headerKeyHit (s : List Char) : Bool :=
  s == "題號".data || s == "答案".data || s == "題目".data

/-! ## The BeautifulSoup path (lines 45–123), over an explicit DOM

`BeautifulSoup(html).find_all('tr')` is modelled by taking the document
as an explicit list of rows; each row is the list of its direct `td`
children (`tr.find_all('td', recursive=False)`); each cell holds a
`colspan` attribute value and a tree of text / `br` / `span` nodes. -/

inductive Node where
  | text : List Char → Node
  | br : Node
  | span : List Node → Node
deriving Repr

/-- A `td` cell: optional `colspan` attribute text and child nodes. -/
structure Td where
  colspan : Option (List Char)
  children : List Node

abbrev Row := List Td
abbrev Doc := List Row

mutual
/-- The text fragments (`NavigableString`s) of a node, in document order. -/
def nodeStrings : Node → List (List Char)
  | .text s => [s]
  | .br => []
  | .span cs => nodesStrings cs
def nodesStrings : List Node → List (List Char)
  | [] => []
  | n :: rest => nodeStrings n ++ nodesStrings rest
end

/-- BeautifulSoup `get_text(separator=sep, strip=True)`: each fragment
stripped, empty fragments dropped, the rest joined with `sep`. -/
def getTextStrip (sep : List Char) (ns : List Node) : List Char :=
  List.intercalate sep (((nodesStrings ns).map strip).filter (fun f => !f.isEmpty))

/-- `td.get_text(strip=True)` (separator defaults to `''`). -/
def tdText (td : Td) : List Char := getTextStrip [] td.children

/-- `td.get_text(separator='\n', strip=True)` — the raw question text. -/
def qTextOf (td : Td) : List Char := getTextStrip ['\n'] td.children

/-- BeautifulSoup `tag.string`: the single text child, through single-tag
wrappers; `none` otherwise. -/
def nodeString : Node → Option (List Char)
  | .text s => some s
  | .br => none
  | .span [c] => nodeString c
  | .span [] => none
  | .span (_ :: _ :: _) => none

/-- Does `span.string` match `re.compile(r'正確答案為')`? -/
def spanStringMatches (n : Node) : Bool :=
  match nodeString n with
  | some s => containsSub ansLit s
  | none => false

mutual
/-- `cell.find('span', string=re.compile(r'正確答案為'))`, descending in
document order. -/
def findSpanN : Node → Option Node
  | .text _ => none
  | .br => none
  | .span cs =>
    if spanStringMatches (.span cs) then some (.span cs) else findSpanL cs
def findSpanL : List Node → Option Node
  | [] => none
  | n :: rest =>
    match findSpanN n with
    | some sp => some sp
    | none => findSpanL rest
end

/-- Lines 75–80: digit of the red answer-marker span, if any. -/
def spanMarkerDigit (qcell : Td) : Option Nat :=
  match findSpanL qcell.children with
  | some sp => markerSearchD (nodeStrings sp).join
  | none => none

/-- Lines 75–87: resolve the answer index — marker span first, then the
first digit 1–4 of the answer cell's stripped text. -/
def bs4AnswerIdx (acell qcell : Td) : Option Nat :=
  match spanMarkerDigit qcell with
  | some d => some d
  | none => firstD14 (tdText acell)

/-- Lines 71–123: process a qualifying row's answer and question cells. -/
def bs4Process (acell qcell : Td) : QuestionRecord :=
  buildRecord (bs4AnswerIdx acell qcell) (markerSub (qTextOf qcell))

/-- Lines 48–123: one row of the BeautifulSoup path; `none` when skipped. -/
def bs4Row (tds : Row) : Option QuestionRecord :=
  match tds with
  | [] => none
  | t0 :: rest =>
    if t0.colspan.isSome then none
    else if headerKeyHit (tdText t0) ||
            headerKeyHit (((rest.head?).map tdText).getD []) ||
            headerKeyHit ((((rest.drop 1).head?).map tdText).getD []) then none
    else
      match rest with
      | t1 :: t2 :: _ => some (bs4Process t1 t2)
      | _ => none

def extractQuestionsBs4 (doc : Doc) : List QuestionRecord :=
  doc.filterMap bs4Row

/-! ## The regex fallback path (lines 126–197), over raw text -/

/-- Case-insensitive match of the (lowercase or symbol) pattern character
`p` against an input character. -/
def chCI (p c : Char) : Bool :=
  c = p || (('a' ≤ p && p ≤ 'z') && c.toNat + 32 = p.toNat)

/-- Case-insensitive "starts with" for lowercase/symbol patterns. -/
def isPfxCI : List Char → List Char → Bool
  | [], _ => true
  | _ :: _, [] => false
  | p :: ps, c :: cs => chCI p c && isPfxCI ps cs

/-- Everything up to and past the first `'>'`: models the `[^>]*>` tail of
an opening-tag pattern.  Returns the attribute text and the remainder. -/
def takeToGt : List Char → Option (List Char × List Char)
  | [] => none
  | c :: r =>
    if c = '>' then some ([], r)
    else (takeToGt r).map (fun p => (c :: p.1, p.2))

def trTag : List Char := ['t', 'r']
def tdTag : List Char := ['t', 'd']

/-- Find the first `<tag[^>]*>`; return attribute text and remainder. -/
def dropToOpen (tag : List Char) : List Char → Option (List Char × List Char)
  | [] => none
  | c :: r =>
    if isPfxCI ('<' :: tag) (c :: r) then
      match takeToGt ((c :: r).drop (tag.length + 1)) with
      | some p => some p
      | none => none
    else dropToOpen tag r

/-- Split at the first `</tag>`: the content before it and the remainder
after it. -/
def splitAtClose (tag : List Char) : List Char → Option (List Char × List Char)
  | [] => none
  | c :: r =>
    if isPfxCI ('<' :: '/' :: (tag ++ ['>'])) (c :: r) then
      some ([], (c :: r).drop (tag.length + 3))
    else (splitAtClose tag r).map (fun p => (c :: p.1, p.2))

theorem takeToGt_len {s a r : List Char} (h : takeToGt s = some (a, r)) :
    r.length < s.length := by
  induction s generalizing a r with
  | nil => simp [takeToGt] at h
  | cons c cr ih =>
    simp only [takeToGt] at h
    split at h
    · simp only [Option.some.injEq, Prod.mk.injEq] at h
      obtain ⟨-, rfl⟩ := h
      simp
    · match h2 : takeToGt cr with
      | none => rw [h2] at h; simp at h
      | some (a2, r2) =>
        rw [h2] at h
        simp only [Option.map_some', Option.some.injEq, Prod.mk.injEq] at h
        obtain ⟨-, rfl⟩ := h
        exact Nat.lt_succ_of_lt (ih h2)

theorem dropToOpen_len {tag s : List Char} {a r : List Char}
    (h : dropToOpen tag s = some (a, r)) : r.length < s.length := by
  induction s generalizing a r with
  | nil => simp [dropToOpen] at h
  | cons c cr ih =>
    unfold dropToOpen at h
    split at h
    · match h2 : takeToGt ((c :: cr).drop (tag.length + 1)) with
      | none => rw [h2] at h; simp at h
      | some p =>
        rw [h2] at h
        cases p with
        | mk p1 p2 =>
          simp only [Option.some.injEq, Prod.mk.injEq] at h
          obtain ⟨-, rfl⟩ := h
          have h3 := takeToGt_len h2
          have h4 : ((c :: cr).drop (tag.length + 1)).length ≤ (c :: cr).length := by
            simp only [List.length_drop, List.length_cons]
            omega
          omega
    · exact Nat.lt_succ_of_lt (ih h)

theorem splitAtClose_len {tag s : List Char} {a r : List Char}
    (h : splitAtClose tag s = some (a, r)) : r.length < s.length := by
  induction s generalizing a r with
  | nil => simp [splitAtClose] at h
  | cons c cr ih =>
    unfold splitAtClose at h
    split at h
    · simp only [Option.some.injEq, Prod.mk.injEq] at h
      obtain ⟨-, rfl⟩ := h
      simp only [List.length_drop, List.length_cons]
      omega
    · match h2 : splitAtClose tag cr with
      | none => rw [h2] at h; simp at h
      | some p =>
        rw [h2] at h
        simp only [Option.map_some', Option.some.injEq, Prod.mk.injEq] at h
        obtain ⟨-, rfl⟩ := h
        exact Nat.lt_succ_of_lt (ih h2)

/-- Fuelled scanning loop for `re.findall(r'<tag[^>]*>(.*?)</tag>', ...)`:
each iteration strictly shrinks the text, so `s.length` fuel suffices. -/
def reTagsGo (tag : List Char) : Nat → List Char → List (List Char × List Char)
  | 0, _ => []
  | fuel + 1, s =>
    match dropToOpen tag s with
    | none => []
    | some (attrs, rest) =>
      match splitAtClose tag rest with
      | none => []
      | some (content, rest2) => (attrs, content) :: reTagsGo tag fuel rest2

/-- `re.findall(r'<tag[^>]*>(.*?)</tag>', s, DOTALL | IGNORECASE)`, kept
with each match's opening-tag attribute text. -/
def reTagsFull (tag : List Char) (s : List Char) : List (List Char × List Char) :=
  reTagsGo tag s.length s

theorem reTagsGo_fuel_eq (tag : List Char) :
    ∀ (n : Nat) (s : List Char), s.length ≤ n →
      ∀ f1 f2, s.length ≤ f1 → s.length ≤ f2 →
        reTagsGo tag f1 s = reTagsGo tag f2 s := by
  intro n
  induction n with
  | zero =>
    intro s hs f1 f2 _ _
    have : s = [] := List.length_eq_zero.1 (by omega)
    subst this
    cases f1 <;> cases f2 <;> rfl
  | succ n ih =>
    intro s hs f1 f2 hf1 hf2
    cases f1 with
    | zero =>
      have : s = [] := List.length_eq_zero.1 (by omega)
      subst this
      cases f2 <;> rfl
    | succ a =>
      cases f2 with
      | zero =>
        have : s = [] := List.length_eq_zero.1 (by omega)
        subst this
        rfl
      | succ b =>
        show (match dropToOpen tag s with
          | none => []
          | some (attrs, rest) =>
            match splitAtClose tag rest with
            | none => []
            | some (content, rest2) => (attrs, content) :: reTagsGo tag a rest2) =
          (match dropToOpen tag s with
          | none => []
          | some (attrs, rest) =>
            match splitAtClose tag rest with
            | none => []
            | some (content, rest2) => (attrs, content) :: reTagsGo tag b rest2)
        match h1 : dropToOpen tag s with
        | none => rfl
        | some (attrs, rest) =>
          have hlt1 := dropToOpen_len h1
          match h2 : splitAtClose tag rest with
          | none => simp only [h2]
          | some (content, rest2) =>
            have hlt2 := splitAtClose_len h2
            have := ih rest2 (by omega) a b (by omega) (by omega)
            simp only [h2, this]

/-- Unfolding equation for `reTagsFull`. -/
theorem reTagsFull_eq (tag s : List Char) :
    reTagsFull tag s =
      match dropToOpen tag s with
      | none => []
      | some (attrs, rest) =>
        match splitAtClose tag rest with
        | none => []
        | some (content, rest2) => (attrs, content) :: reTagsFull tag rest2 := by
  unfold reTagsFull
  cases hl : s.length with
  | zero =>
    have : s = [] := List.length_eq_zero.1 hl
    subst this
    rfl
  | succ n =>
    have hsn : s.length = n + 1 := hl
    show (match dropToOpen tag s with
      | none => []
      | some (attrs, rest) =>
        match splitAtClose tag rest with
        | none => []
        | some (content, rest2) => (attrs, content) :: reTagsGo tag n rest2) = _
    match h1 : dropToOpen tag s with
    | none => rfl
    | some (attrs, rest) =>
      have hlt1 := dropToOpen_len h1
      match h2 : splitAtClose tag rest with
      | none => simp only [h2]
      | some (content, rest2) =>
        have hlt2 := splitAtClose_len h2
        have := reTagsGo_fuel_eq tag rest2.length rest2 le_rfl n rest2.length
          (by omega) le_rfl
        simp only [h2, this]

/-- Step equation for `reTagsFull`. -/
theorem reTagsFull_step {tag s attrs rest content rest2 : List Char}
    (h1 : dropToOpen tag s = some (attrs, rest))
    (h2 : splitAtClose tag rest = some (content, rest2)) :
    reTagsFull tag s = (attrs, content) :: reTagsFull tag rest2 := by
  rw [reTagsFull_eq tag s]
  simp only [h1, h2]

theorem reTagsFull_none {tag s : List Char} (h : dropToOpen tag s = none) :
    reTagsFull tag s = [] := by
  rw [reTagsFull_eq tag s]
  simp only [h]

/-- The `findall` of the source (only the captured contents). -/
def reTags (tag : List Char) (s : List Char) : List (List Char) :=
  (reTagsFull tag s).map (·.2)

/-- Match `<br\s*/?>` (ignore-case) at the head; return the total match
length. -/
def matchBrAt (s : List Char) : Option Nat :=
  if isPfxCI ['<', 'b', 'r'] s then
    let k := ((s.drop 3).takeWhile pyWs).length
    match (s.drop 3).drop k with
    | '/' :: '>' :: _ => some (3 + k + 2)
    | '>' :: _ => some (3 + k + 1)
    | _ => none
  else none

theorem matchBrAt_pos {s : List Char} {len : Nat} (h : matchBrAt s = some len) :
    0 < len := by
  unfold matchBrAt at h
  split at h
  · dsimp only at h
    split at h
    · injection h with h'; omega
    · injection h with h'; omega
    · exact absurd h (by simp)
  · exact absurd h (by simp)

/-- The scanning loop of `re.sub(r'<br\s*/?>', '\n', s, IGNORECASE)`. -/
def brSubGo (skip : Nat) : List Char → List Char
  | [] => []
  | c :: r =>
    match skip with
    | k + 1 => brSubGo k r
    | 0 =>
      match matchBrAt (c :: r) with
      | some len => '\n' :: brSubGo (len - 1) r
      | none => c :: brSubGo 0 r

/-- `re.sub(r'<br\s*/?>', '\n', s, flags=IGNORECASE)`. -/
def brSub (s : List Char) : List Char := brSubGo 0 s

theorem brSubGo_skip (k : Nat) (s : List Char) :
    brSubGo k s = brSubGo 0 (s.drop k) := by
  induction s generalizing k with
  | nil => cases k <;> rfl
  | cons c rest ih =>
    cases k with
    | zero => rfl
    | succ k' =>
      show brSubGo k' rest = _
      rw [ih k']
      rfl

theorem brSub_match {c : Char} {r : List Char} {len : Nat}
    (h : matchBrAt (c :: r) = some len) :
    brSub (c :: r) = '\n' :: brSub ((c :: r).drop len) := by
  have hpos := matchBrAt_pos h
  show brSubGo 0 (c :: r) = _
  rw [show brSubGo 0 (c :: r) = '\n' :: brSubGo (len - 1) r by
    simp only [brSubGo, h]]
  rw [brSubGo_skip]
  have : (c :: r).drop len = r.drop (len - 1) := by
    cases len with
    | zero => omega
    | succ n => simp
  rw [this]
  rfl

theorem brSub_nomatch {c : Char} {r : List Char}
    (h : matchBrAt (c :: r) = none) :
    brSub (c :: r) = c :: brSub r := by
  show brSubGo 0 (c :: r) = _
  simp only [brSubGo, h]
  rfl

/-- The number of characters through the first `'>'`, failing at a
newline or the end: the `.*?>` tail of `re.sub(r'<.*?>', '', s)` without
`DOTALL`. -/
def toGtNoNl : List Char → Option Nat
  | [] => none
  | c :: r =>
    if c = '>' then some 1
    else if c = '\n' then none
    else (toGtNoNl r).map (· + 1)

theorem toGtNoNl_pos {s : List Char} {n : Nat} (h : toGtNoNl s = some n) :
    0 < n := by
  induction s generalizing n with
  | nil => simp [toGtNoNl] at h
  | cons c cr ih =>
    simp only [toGtNoNl] at h
    split at h
    · injection h with h'
      omega
    · split at h
      · exact absurd h (by simp)
      · match h2 : toGtNoNl cr with
        | none => rw [h2] at h; simp at h
        | some m =>
          rw [h2] at h
          simp only [Option.map_some', Option.some.injEq] at h
          omega

/-- The scanning loop of `re.sub(r'<.*?>', '', s)`. -/
def tagStripGo (skip : Nat) : List Char → List Char
  | [] => []
  | c :: r =>
    match skip with
    | k + 1 => tagStripGo k r
    | 0 =>
      if c = '<' then
        match toGtNoNl r with
        | some len => tagStripGo len r
        | none => c :: tagStripGo 0 r
      else c :: tagStripGo 0 r

/-- `re.sub(r'<.*?>', '', s)` (no `DOTALL`: a tag may not span a newline). -/
def tagStrip (s : List Char) : List Char := tagStripGo 0 s

theorem tagStripGo_skip (k : Nat) (s : List Char) :
    tagStripGo k s = tagStripGo 0 (s.drop k) := by
  induction s generalizing k with
  | nil => cases k <;> rfl
  | cons c rest ih =>
    cases k with
    | zero => rfl
    | succ k' =>
      show tagStripGo k' rest = _
      rw [ih k']
      rfl

theorem tagStrip_tag {c : Char} {r : List Char} {len : Nat}
    (hc : c = '<') (h : toGtNoNl r = some len) :
    tagStrip (c :: r) = tagStrip (r.drop len) := by
  subst hc
  show tagStripGo 0 ('<' :: r) = _
  rw [show tagStripGo 0 ('<' :: r) = tagStripGo len r by
    simp [tagStripGo, h]]
  rw [tagStripGo_skip]
  rfl

theorem tagStrip_keep {c : Char} {r : List Char}
    (h : c ≠ '<' ∨ toGtNoNl r = none) :
    tagStrip (c :: r) = c :: tagStrip r := by
  show tagStripGo 0 (c :: r) = _
  by_cases hc : c = '<'
  · subst hc
    have hn : toGtNoNl r = none := by
      rcases h with h1 | h2
      · exact absurd rfl h1
      · exact h2
    simp only [tagStripGo, hn, if_pos rfl]
    rfl
  · simp only [tagStripGo, if_neg hc]
    rfl

/-- `strip_tags` of the source (line 138): tags removed, then stripped. -/
def stripTags (s : List Char) : List Char := strip (tagStrip s)

/-- Lines 153–157: `<br>` → newline, tags removed, stripped. -/
def cellPlainText (s : List Char) : List Char := strip (tagStrip (brSub s))

def isDigit09 (c : Char) : Bool := '0' ≤ c && c ≤ '9'

/-- Match `colspan\s*=\s*"?\d+"?` (ignore-case) at the head of `s`. -/
def matchColspanAt (s : List Char) : Bool :=
  if isPfxCI ['c', 'o', 'l', 's', 'p', 'a', 'n'] s then
    let r := s.drop 7
    let r1 := r.drop (r.takeWhile pyWs).length
    match r1 with
    | '=' :: r2 =>
      let r3 := r2.drop (r2.takeWhile pyWs).length
      match r3 with
      | '"' :: c :: _ => isDigit09 c
      | c :: _ => isDigit09 c
      | [] => false
    | _ => false
  else false

/-- `re.search(r'colspan\s*=\s*"?\d+"?', s, IGNORECASE)` as a boolean. -/
def colspanSearch : List Char → Bool
  | [] => false
  | c :: r => matchColspanAt (c :: r) || colspanSearch r

/-- Lines 159–168: resolve the answer index in the fallback path — the
inline marker in the question cell's plain text first, then the first
digit 1–4 of the answer cell's plain text. -/
def rxAnswerIdx (c1 c2 : List Char) : Option Nat :=
  match markerSearchD (cellPlainText c2) with
  | some d => some d
  | none => firstD14 (cellPlainText c1)

/-- Lines 149–197: process the answer and question cells' raw contents. -/
def rxProcess (c1 c2 : List Char) : QuestionRecord :=
  buildRecord (rxAnswerIdx c1 c2) (strip (markerSub (cellPlainText c2)))

/-- Lines 128–197: one row of the regex-fallback path, from the captured
`<tr>` content; `none` when skipped. -/
def rxRow (tr : List Char) : Option QuestionRecord :=
  match reTags tdTag tr with
  | [] => none
  | first :: rest =>
    if colspanSearch tr then none
    else if headerKeyHit (stripTags first) ||
            headerKeyHit (((rest.head?).map stripTags).getD []) ||
            headerKeyHit ((((rest.drop 1).head?).map stripTags).getD []) then none
    else
      match rest with
      | c1 :: c2 :: _ => some (rxProcess c1 c2)
      | _ => none

def extractQuestionsRx (html : List Char) : List QuestionRecord :=
  (reTags trTag html).filterMap rxRow

/-! ## Rendering the DOM to markup text -/

mutual
def renderNode : Node → List Char
  | .text s => s
  | .br => "<br/>".data
  | .span cs => "<span>".data ++ renderNodes cs ++ "</span>".data
def renderNodes : List Node → List Char
  | [] => []
  | n :: r => renderNode n ++ renderNodes r
end

def attrRender : Option (List Char) → List Char
  | some v => " colspan=\"".data ++ v ++ "\"".data
  | none => []

def renderTd (td : Td) : List Char :=
  "<td".data ++ attrRender td.colspan ++ ">".data ++
    renderNodes td.children ++ "</td>".data

def renderRowInner (tds : Row) : List Char := (tds.map renderTd).join

def renderRow (tds : Row) : List Char :=
  "<tr>".data ++ renderRowInner tds ++ "</tr>".data

def renderDoc (doc : Doc) : List Char := (doc.map renderRow).join

/-! ## The `main` flow (lines 248–271) -/

inductive MainOutcome where
  | missingFile
  | noRows
  | wrote (rows : List QuestionRecord)
deriving Repr

/-- `main`, abstracted over the extraction function and the file system:
missing input file → error message, early return, nothing written; zero
extracted rows → error message, early return, nothing written; otherwise
the extracted rows are written. -/
def mainModel (extract : List Char → List QuestionRecord)
    (inputExists : Bool) (content : List Char) : MainOutcome :=
  if !inputExists then .missingFile
  else if (extract content).isEmpty then .noRows
  else .wrote (extract content)

/-! ## Row-qualification predicates and concrete fixtures for the claims -/

/-- The row-qualification conditions as the specification states them, on
a DOM row: at least 3 cells, no `colspan` on the first cell, none of the
first three cells' text equal to a header label. -/
def bs4Qualifies (tds : Row) : Bool :=
  match tds with
  | [] => false
  | t0 :: rest =>
    decide (3 ≤ (t0 :: rest).length) && t0.colspan.isNone &&
    !(headerKeyHit (tdText t0) ||
      headerKeyHit (((rest.head?).map tdText).getD []) ||
      headerKeyHit ((((rest.drop 1).head?).map tdText).getD []))

/-- The conditions under which the fallback path keeps a row (note the
`colspan` scan ranges over the whole row content). -/
def rxQualifies (tr : List Char) : Bool :=
  match reTags tdTag tr with
  | [] => false
  | first :: rest =>
    decide (3 ≤ (first :: rest).length) && !colspanSearch tr &&
    !(headerKeyHit (stripTags first) ||
      headerKeyHit (((rest.head?).map stripTags).getD []) ||
      headerKeyHit ((((rest.drop 1).head?).map stripTags).getD []))

/-- The row-qualification conditions exactly as the claim states them, on
a raw row: the `colspan` condition restricted to the first cell's
opening-tag attributes. -/
def claimQualifiesRx (tr : List Char) : Bool :=
  decide (3 ≤ (reTagsFull tdTag tr).length) &&
  !colspanSearch (((reTagsFull tdTag tr).head?.map (·.1)).getD []) &&
  !(headerKeyHit (((reTags tdTag tr).head?.map stripTags).getD []) ||
    headerKeyHit ((((reTags tdTag tr).drop 1).head?.map stripTags).getD []) ||
    headerKeyHit ((((reTags tdTag tr).drop 2).head?.map stripTags).getD []))

/-- Is this node not a `span` element?  (`text` and `br` nodes have no
children, so a cell all of whose direct children satisfy this contains no
`span` at any depth.) -/
def nonSpanTop : Node → Bool
  | .span _ => false
  | _ => true

/-- Header row of the specification's end-to-end scenario. -/
def hdrRow : Row :=
  [⟨none, [.text "題號".data]⟩, ⟨none, [.text "答案".data]⟩, ⟨none, [.text "題目".data]⟩]

/-- Data row of the specification's end-to-end scenario (answer cell
`2`, four inline option markers). -/
def dataRow : Row :=
  [⟨none, [.text "1".data]⟩, ⟨none, [.text "2".data]⟩,
   ⟨none, [.text "題目內容(1)選項一(2)選項二(3)選項三(4)選項四".data]⟩]

/-- Data row whose question cell carries a red `正確答案為:3` marker span
and whose answer cell is the digit-free `—`. -/
def c7row : Row :=
  [⟨none, [.text "1".data]⟩, ⟨none, [.text "—".data]⟩,
   ⟨none, [.text "題目內容(1)選項一(2)選項二(3)選項三(4)選項四".data, .br,
           .span [.text "正確答案為:3".data]]⟩]

/-- Data row whose question cell carries `正確答案為:3` as plain text (no
span) while the answer cell holds the digit `2`. -/
def c10row : Row :=
  [⟨none, [.text "1".data]⟩, ⟨none, [.text "2".data]⟩,
   ⟨none, [.text "題目甲正確答案為:3(1)A(2)B(3)C(4)D".data]⟩]

/-- Data row with a `colspan` attribute on its third cell (and none on
the first). -/
def cxRow : Row :=
  [⟨none, [.text "1".data]⟩, ⟨none, [.text "2".data]⟩,
   ⟨some "2".data, [.text "Q(1)a(2)b(3)c(4)d".data]⟩]

/-- A well-formed data row whose marker span sits between two text
items of the question cell, with a digit-free answer cell. -/
def wRow : Row :=
  [⟨none, [.text "1".data]⟩, ⟨none, [.text "—".data]⟩,
   ⟨none, [.text "題目內容".data, .br, .span [.text "正確答案為:3".data],
           .br, .text "(1)選項一(2)選項二(3)選項三(4)選項四".data]⟩]

/-- A two-row well-formed document: the scenario header row followed by
`wRow`. -/
def wDoc : Doc := [hdrRow, wRow]

/-! ## Well-formed documents (for the path-equivalence claim)

`rowWF` pins down the fixture shape on which the two parsing paths are
compared: cells are `td`s whose text carries no stray `<` / `>` /
`colspan`, only the first cell may carry a (numeric) `colspan`, the first
two cells are single text nodes, and the question cell alternates text /
marker-span items separated by `<br>`, with the red answer marker in
canonical `正確答案為[:：]?N` form and not the first or last item. -/

/-- Case-insensitive substring occurrence (for a lowercase pattern). -/
def containsSubCI (pat : List Char) : List Char → Bool
  | [] => pat.isEmpty
  | c :: rest => isPfxCI pat (c :: rest) || containsSubCI pat rest

def colspanLit : List Char := ['c', 'o', 'l', 's', 'p', 'a', 'n']

/-- Text free of markup-significant material: no `<` or `>` characters
and no `colspan` substring. -/
def textOK (s : List Char) : Bool :=
  s.all (fun c => !(c = '<') && !(c = '>')) && !containsSubCI colspanLit s

/-- A fragment: non-empty, already stripped, markup-free text. -/
def fragWF (t : List Char) : Bool :=
  !t.isEmpty && (strip t == t) && textOK t

/-- The tail of a canonical answer marker after the literal:
`[:：]?[1-4]` and nothing else. -/
def markerTail : List Char → Option Char
  | [':', d] => if isD14 d then some d else none
  | ['：', d] => if isD14 d then some d else none
  | [d] => if isD14 d then some d else none
  | _ => none

/-- A canonical inline answer marker: `正確答案為[:：]?[1-4]` exactly. -/
def markerForm (t : List Char) : Bool :=
  ansLit.isPrefixOf t && (markerTail (t.drop 5)).isSome

/-- Declared digit of a canonical marker. -/
def markerDigit (t : List Char) : Nat :=
  match markerTail (t.drop 5) with
  | some d => d14val d
  | none => 0

/-- A content item of the question cell: plain text without the marker
literal, or a single-text span that is either a canonical marker or
marker-literal-free. -/
def itemWF : Node → Bool
  | .text t => fragWF t && !containsSub ansLit t
  | .span [.text t] => fragWF t && (markerForm t || !containsSub ansLit t)
  | _ => false

/-- Does the item avoid the marker literal entirely? -/
def itemLitFree : Node → Bool
  | .text t => !containsSub ansLit t
  | .span [.text t] => !containsSub ansLit t
  | _ => false

/-- The question cell's children: items separated by single `<br>`s. -/
def altWF : List Node → Bool
  | [] => false
  | [n] => itemWF n
  | n :: .br :: rest => itemWF n && altWF rest
  | _ => false

/-- The text of one item. -/
def itemText : Node → List Char
  | .text t => t
  | .span [.text t] => t
  | _ => []

/-- The fragment texts of the question cell, in document order. -/
def altFrags : List Node → List (List Char)
  | [] => []
  | [n] => [itemText n]
  | n :: .br :: rest => itemText n :: altFrags rest
  | _ => []

/-- Question-cell well-formedness: alternation plus a marker-free first
and last item. -/
def qcellWF (ns : List Node) : Bool :=
  altWF ns &&
  (match ns.head? with | some n => itemLitFree n | none => false) &&
  (match ns.getLast? with | some n => itemLitFree n | none => false)

/-- A `colspan` attribute value the fallback's regex recognises: one or
more digits. -/
def colspanOK : Option (List Char) → Bool
  | none => true
  | some v => !v.isEmpty && v.all isDigit09

/-- A plain cell: a single markup-free text node. -/
def simpleCell (td : Td) : Bool :=
  match td.children with
  | [.text s] => textOK s
  | _ => false

/-- Well-formed row: only the first cell may carry a (numeric) `colspan`;
the first two cells are plain; the third is a well-formed question cell;
any further cells are plain and `colspan`-free. -/
def rowWF (tds : Row) : Bool :=
  match tds with
  | [] => true
  | t0 :: rest =>
    colspanOK t0.colspan && simpleCell t0 &&
    rest.all (fun td => td.colspan.isNone) &&
    (match rest with
     | [] => true
     | t1 :: rest2 =>
       simpleCell t1 &&
       (match rest2 with
        | [] => true
        | t2 :: rest3 => qcellWF t2.children && rest3.all simpleCell))

def docWF (doc : Doc) : Bool := doc.all rowWF

/-- The closing tags as character lists. -/
abbrev closeTd : List Char := '<' :: '/' :: (tdTag ++ ['>'])

abbrev closeTr : List Char := '<' :: '/' :: (trTag ++ ['>'])

/-- A clash: an aligned position within both lists where the pattern
character cannot match the input character. -/
def hasClash : List Char → List Char → Bool
  | b :: bs, c :: cs => !chCI b c || hasClash bs cs
  | _, _ => false

/-- Every non-empty suffix of `a`, whatever follows it, fails to start a
(case-insensitive) match of `bad`. -/
def OkSuffix (bad a : List Char) : Prop :=
  ∀ t z, t <:+ a → t ≠ [] → isPfxCI bad (t ++ z) = false

/-- Like `OkSuffix`, but only against continuations that are empty or
start with `'<'` (which is how a markup piece is always followed). -/
def SafePat (bad a : List Char) : Prop :=
  ∀ t z, t <:+ a → t ≠ [] → (z = [] ∨ ∃ zr, z = '<' :: zr) →
    isPfxCI bad (t ++ z) = false

/-- The record produced by the scenario data row. -/
def w6rec : QuestionRecord :=
  ⟨"題目內容".data, ["選項一".data, "選項二".data, "選項三".data, "選項四".data],
   "選項二".data⟩

/-- The record produced by the `c7row` scenario. -/
def c7rec : QuestionRecord :=
  ⟨"題目內容".data, ["選項一".data, "選項二".data, "選項三".data, "選項四".data],
   "選項三".data⟩

/-- The rendered form of `cxRow` and its row content. -/
def cxHtml : List Char := renderDoc [cxRow]

def cxTr : List Char := renderRowInner cxRow

/-! # Theorems -/

/-! ## Suffix and case-insensitive-pattern machinery -/

theorem chCI_self (c : Char) : chCI c c = true := by simp [chCI]

theorem isPfxCI_refl (p s : List Char) : isPfxCI p (p ++ s) = true := by
  induction p with
  | nil => rfl
  | cons c cs ih => simp [isPfxCI, chCI_self, ih]

theorem isPfxCI_false_of_clash {bad t : List Char} (h : hasClash bad t = true)
    (z : List Char) : isPfxCI bad (t ++ z) = false := by
  induction bad generalizing t with
  | nil => simp [hasClash] at h
  | cons b bs ih =>
    cases t with
    | nil => simp [hasClash] at h
    | cons c cs =>
      simp only [hasClash, Bool.or_eq_true, Bool.not_eq_true'] at h
      rcases h with h | h
      · simp [isPfxCI, h]
      · simp only [List.cons_append, isPfxCI]
        show (chCI b c && isPfxCI bs (cs ++ z)) = false
        rw [ih h]
        simp

theorem suffix_append_cases {α : Type} {t a b : List α} (h : t <:+ a ++ b) :
    t <:+ b ∨ ∃ t₁, t₁ <:+ a ∧ t₁ ≠ [] ∧ t = t₁ ++ b := by
  induction a with
  | nil => exact Or.inl h
  | cons c a' ih =>
    rw [List.cons_append, List.suffix_cons_iff] at h
    rcases h with rfl | h
    · exact Or.inr ⟨c :: a', List.suffix_refl _, by simp, by simp⟩
    · rcases ih h with h2 | ⟨t₁, ht₁, hne₁, rfl⟩
      · exact Or.inl h2
      · exact Or.inr ⟨t₁, ht₁.trans (List.suffix_cons c a'), hne₁, rfl⟩

theorem okSuffix_nil (bad : List Char) : OkSuffix bad [] := by
  intro t z ht hne
  rw [List.suffix_nil] at ht
  exact absurd ht hne

theorem okSuffix_append {bad a b : List Char}
    (ha : OkSuffix bad a) (hb : OkSuffix bad b) : OkSuffix bad (a ++ b) := by
  intro t z ht hne
  rcases suffix_append_cases ht with h | ⟨t₁, ht₁, hne₁, rfl⟩
  · exact hb t z h hne
  · rw [List.append_assoc]
    exact ha t₁ (b ++ z) ht₁ hne₁

theorem okSuffix_of_clashAll {bad a : List Char}
    (h : ∀ t ∈ a.tails, t = [] ∨ hasClash bad t = true) : OkSuffix bad a := by
  intro t z ht hne
  rcases h t ((List.mem_tails t a).2 ht) with h' | hc
  · exact absurd h' hne
  · exact isPfxCI_false_of_clash hc z

theorem okSuffix_of_head_clash {b : Char} {bs a : List Char}
    (h : ∀ c ∈ a, chCI b c = false) : OkSuffix (b :: bs) a := by
  intro t z ht hne
  match t, hne with
  | c :: cs, _ =>
    have hc : c ∈ a := ht.mem (List.mem_cons_self c cs)
    simp [isPfxCI, h c hc]

theorem safePat_of_okSuffix {bad a : List Char} (h : OkSuffix bad a) :
    SafePat bad a :=
  fun t z ht hne _ => h t z ht hne

theorem safePat_nil (bad : List Char) : SafePat bad [] :=
  safePat_of_okSuffix (okSuffix_nil bad)

theorem safePat_append {bad a b : List Char}
    (ha : SafePat bad a) (hb : SafePat bad b)
    (hsh : b = [] ∨ ∃ br' , b = '<' :: br' ) : SafePat bad (a ++ b) := by
  intro t z ht hne hz
  rcases suffix_append_cases ht with h | ⟨t₁, ht₁, hne₁, rfl⟩
  · exact hb t z h hne hz
  · rw [List.append_assoc]
    refine ha t₁ (b ++ z) ht₁ hne₁ ?_
    rcases hsh with rfl | ⟨br' , rfl⟩
    · simpa using hz
    · exact Or.inr ⟨br' ++ z, by simp⟩

theorem isPfxCI_append_long {pat a : List Char} (b : List Char)
    (h : pat.length ≤ a.length) : isPfxCI pat (a ++ b) = isPfxCI pat a := by
  induction pat generalizing a with
  | nil => rfl
  | cons p ps ih =>
    cases a with
    | nil => simp at h
    | cons c cs =>
      simp only [List.cons_append, isPfxCI]
      show (chCI p c && isPfxCI ps (cs ++ b)) = (chCI p c && isPfxCI ps cs)
      rw [ih (by simpa using h)]

theorem isPfxCI_false_of_short {pat t : List Char}
    (h : t.length < pat.length) : isPfxCI pat t = false := by
  induction pat generalizing t with
  | nil => simp at h
  | cons p ps ih =>
    cases t with
    | nil => rfl
    | cons c cs =>
      simp only [isPfxCI]
      rw [ih (by simpa using h)]
      simp

theorem isPfxCI_false_at_boundary {pat t : List Char} {c : Char}
    (zr : List Char) (hlen : t.length < pat.length)
    (hc : ∀ p ∈ pat, chCI p c = false) :
    isPfxCI pat (t ++ c :: zr) = false := by
  induction pat generalizing t with
  | nil => simp at hlen
  | cons p ps ih =>
    cases t with
    | nil =>
      simp [isPfxCI, hc p (List.mem_cons_self p ps)]
    | cons a t' =>
      simp only [List.cons_append, isPfxCI]
      show (chCI p a && isPfxCI ps (t' ++ c :: zr)) = false
      rw [ih (by simpa using hlen) (fun p' hp' => hc p' (List.mem_cons_of_mem p hp'))]
      simp

theorem containsSubCI_of_suffix {pat t s : List Char}
    (hts : t <:+ s) (h : isPfxCI pat t = true) : containsSubCI pat s = true := by
  induction s with
  | nil =>
    rw [List.suffix_nil] at hts
    subst hts
    cases pat with
    | nil => rfl
    | cons p ps => simp [isPfxCI] at h
  | cons c rest ih =>
    rw [List.suffix_cons_iff] at hts
    rcases hts with rfl | hts
    · simp [containsSubCI, h]
    · simp [containsSubCI, ih hts]

theorem chCI_lower_lt {p : Char} (h1 : 'a' ≤ p) (h2 : p ≤ 'z') :
    chCI p '<' = false := by
  simp only [chCI, Bool.or_eq_false_iff]
  constructor
  · simp only [decide_eq_false_iff_not]
    intro hEq
    rw [← hEq] at h1
    exact absurd h1 (by decide)
  · simp only [Bool.and_eq_false_iff]
    right
    simp only [decide_eq_false_iff_not]
    show ¬('<'.toNat + 32 = p.toNat)
    have hp1 : 97 ≤ p.toNat := h1
    have : '<'.toNat + 32 = 92 := by decide
    omega

/-! ## Tag scanners over rendered markup -/

theorem takeToGt_append {a : List Char} (x : List Char)
    (h : ∀ c ∈ a, ¬(c = '>')) : takeToGt (a ++ '>' :: x) = some (a, x) := by
  induction a with
  | nil => simp [takeToGt]
  | cons c cs ih =>
    simp only [List.cons_append, takeToGt]
    rw [if_neg (h c (List.mem_cons_self c cs))]
    show Option.map (fun p => (c :: p.1, p.2)) (takeToGt (cs ++ '>' :: x)) =
      some (c :: cs, x)
    rw [ih (fun c' hc' => h c' (List.mem_cons_of_mem c hc'))]
    rfl

theorem dropToOpen_td (attr tail : List Char)
    (hattr : ∀ c ∈ attr, ¬(c = '>')) :
    dropToOpen tdTag ('<' :: 't' :: 'd' :: (attr ++ '>' :: tail)) =
      some (attr, tail) := by
  unfold dropToOpen
  rw [if_pos (by simp [isPfxCI, chCI, tdTag])]
  rw [show ('<' :: 't' :: 'd' :: (attr ++ '>' :: tail)).drop (tdTag.length + 1) =
      attr ++ '>' :: tail from rfl]
  rw [takeToGt_append tail hattr]

theorem dropToOpen_tr (tail : List Char) :
    dropToOpen trTag ('<' :: 't' :: 'r' :: '>' :: tail) = some ([], tail) := by
  unfold dropToOpen
  rw [if_pos (by simp [isPfxCI, chCI, trTag])]
  rw [show ('<' :: 't' :: 'r' :: '>' :: tail).drop (trTag.length + 1) =
      '>' :: tail from rfl]
  rw [show takeToGt ('>' :: tail) = some ([], tail) by simp [takeToGt]]

theorem splitAtClose_append {tag inner rest : List Char}
    (h : OkSuffix ('<' :: '/' :: (tag ++ ['>'])) inner) :
    splitAtClose tag (inner ++ ('<' :: '/' :: (tag ++ ['>'])) ++ rest) =
      some (inner, rest) := by
  induction inner with
  | nil =>
    simp only [List.nil_append]
    show splitAtClose tag (('<' :: '/' :: (tag ++ ['>'])) ++ rest) = _
    rw [show ('<' :: '/' :: (tag ++ ['>'])) ++ rest =
        '<' :: ('/' :: (tag ++ ['>']) ++ rest) by simp]
    unfold splitAtClose
    rw [if_pos (by
      rw [show '<' :: ('/' :: (tag ++ ['>']) ++ rest) =
          ('<' :: '/' :: (tag ++ ['>'])) ++ rest by simp]
      exact isPfxCI_refl _ _)]
    have hlen : ('<' :: ('/' :: (tag ++ ['>']) ++ rest)).drop (tag.length + 3) =
        rest := by
      rw [show '<' :: ('/' :: (tag ++ ['>']) ++ rest) =
          ('<' :: '/' :: (tag ++ ['>'])) ++ rest by simp]
      rw [show tag.length + 3 = ('<' :: '/' :: (tag ++ ['>'])).length by simp]
      exact List.drop_left _ _
    rw [hlen]
  | cons c cs ih =>
    rw [show (c :: cs) ++ ('<' :: '/' :: (tag ++ ['>'])) ++ rest =
        c :: (cs ++ ('<' :: '/' :: (tag ++ ['>'])) ++ rest) by simp]
    unfold splitAtClose
    rw [if_neg (by
      rw [show c :: (cs ++ ('<' :: '/' :: (tag ++ ['>'])) ++ rest) =
          (c :: cs) ++ (('<' :: '/' :: (tag ++ ['>'])) ++ rest) by simp]
      rw [h (c :: cs) (('<' :: '/' :: (tag ++ ['>'])) ++ rest)
        (List.suffix_refl _) (by simp)]
      simp)]
    rw [ih (fun t z ht hne => h t z (ht.trans (List.suffix_cons c cs)) hne)]
    rfl

theorem reTagsFull_td_cons (td : Td) (rest : List Char)
    (ha : ∀ c ∈ attrRender td.colspan, ¬(c = '>'))
    (hc : OkSuffix ('<' :: '/' :: (tdTag ++ ['>'])) (renderNodes td.children)) :
    reTagsFull tdTag (renderTd td ++ rest) =
      (attrRender td.colspan, renderNodes td.children) :: reTagsFull tdTag rest := by
  have h1 : dropToOpen tdTag (renderTd td ++ rest) =
      some (attrRender td.colspan,
        renderNodes td.children ++ ('<' :: '/' :: (tdTag ++ ['>'])) ++ rest) := by
    rw [show renderTd td ++ rest = '<' :: 't' :: 'd' ::
        (attrRender td.colspan ++ '>' :: (renderNodes td.children ++
          ('<' :: '/' :: (tdTag ++ ['>'])) ++ rest)) by
      simp [renderTd, tdTag]]
    exact dropToOpen_td _ _ ha
  have h2 := @splitAtClose_append tdTag (renderNodes td.children) rest hc
  exact reTagsFull_step h1 h2

theorem reTagsFull_nil (tag : List Char) : reTagsFull tag [] = [] := rfl

theorem reTagsFull_rowInner (tds : Row)
    (H : ∀ td ∈ tds, (∀ c ∈ attrRender td.colspan, ¬(c = '>')) ∧
      OkSuffix ('<' :: '/' :: (tdTag ++ ['>'])) (renderNodes td.children)) :
    reTagsFull tdTag (renderRowInner tds) =
      tds.map (fun td => (attrRender td.colspan, renderNodes td.children)) := by
  induction tds with
  | nil => rfl
  | cons td rest ih =>
    rw [show renderRowInner (td :: rest) = renderTd td ++ renderRowInner rest by
      simp [renderRowInner]]
    rw [reTagsFull_td_cons td _ (H td (List.mem_cons_self td rest)).1
      (H td (List.mem_cons_self td rest)).2]
    rw [ih (fun td' h' => H td' (List.mem_cons_of_mem td h'))]
    rfl

theorem reTagsFull_tr_cons (row : Row) (rest : List Char)
    (hc : OkSuffix ('<' :: '/' :: (trTag ++ ['>'])) (renderRowInner row)) :
    reTagsFull trTag (renderRow row ++ rest) =
      ([], renderRowInner row) :: reTagsFull trTag rest := by
  have h1 : dropToOpen trTag (renderRow row ++ rest) =
      some (([] : List Char),
        renderRowInner row ++ ('<' :: '/' :: (trTag ++ ['>'])) ++ rest) := by
    rw [show renderRow row ++ rest = '<' :: 't' :: 'r' :: '>' ::
        (renderRowInner row ++ ('<' :: '/' :: (trTag ++ ['>'])) ++ rest) by
      simp [renderRow, trTag]]
    exact dropToOpen_tr _
  have h2 := @splitAtClose_append trTag (renderRowInner row) rest hc
  exact reTagsFull_step h1 h2

theorem reTagsFull_doc (doc : Doc)
    (H : ∀ row ∈ doc, OkSuffix ('<' :: '/' :: (trTag ++ ['>'])) (renderRowInner row)) :
    reTagsFull trTag (renderDoc doc) =
      doc.map (fun row => ([], renderRowInner row)) := by
  induction doc with
  | nil => rfl
  | cons row rest ih =>
    rw [show renderDoc (row :: rest) = renderRow row ++ renderDoc rest by
      simp [renderDoc]]
    rw [reTagsFull_tr_cons row _ (H row (List.mem_cons_self row rest))]
    rw [ih (fun r h' => H r (List.mem_cons_of_mem row h'))]
    rfl

theorem safePat_colspan_text {s : List Char}
    (h : containsSubCI colspanLit s = false) : SafePat colspanLit s := by
  intro t z ht hne hz
  by_cases hlen : colspanLit.length ≤ t.length
  · by_cases hp : isPfxCI colspanLit t = true
    · rw [containsSubCI_of_suffix ht hp] at h
      exact absurd h (by simp)
    · rw [isPfxCI_append_long z hlen]
      simpa using hp
  · rcases hz with rfl | ⟨zr, rfl⟩
    · rw [List.append_nil]
      exact isPfxCI_false_of_short (by omega)
    · exact isPfxCI_false_at_boundary zr (by omega)
        (fun p hp => by
          have hp' : p = 'c' ∨ p = 'o' ∨ p = 'l' ∨ p = 's' ∨ p = 'p' ∨
              p = 'a' ∨ p = 'n' := by
            simpa [colspanLit] using hp
          rcases hp' with rfl | rfl | rfl | rfl | rfl | rfl | rfl <;>
            exact chCI_lower_lt (by decide) (by decide))

/-! ## List helper lemmas -/

theorem getD_set_self {α : Type} {l : List α} {i : Nat} (h : i < l.length)
    (v d : α) : (l.set i v).getD i d = v := by
  rw [List.getD_eq_getElem _ _ (by simpa using h)]
  simp [List.getElem_set, h]

theorem getD_set_other {α : Type} {l : List α} {i j : Nat} (hij : i ≠ j)
    (v d : α) : (l.set i v).getD j d = l.getD j d := by
  unfold List.getD
  rw [show (l.set i v).get? j = l.get? j by
    rw [List.get?_eq_getElem?, List.get?_eq_getElem?, List.getElem?_set_ne hij]]

/-! ## The option-assignment fold -/

theorem foldl_optStep_length (q : List Char) (l : List (OptMark × Nat))
    (opts : List (List Char)) :
    (l.foldl (optStep q) opts).length = opts.length := by
  induction l generalizing opts with
  | nil => rfl
  | cons x t ih => rw [List.foldl_cons, ih]; simp [optStep]

theorem foldl_optStep_untouched (q : List Char) (l : List (OptMark × Nat))
    (opts : List (List Char)) (j : Nat) (hj : ∀ p ∈ l, p.1.dig - 1 ≠ j) :
    (l.foldl (optStep q) opts).getD j [] = opts.getD j [] := by
  induction l generalizing opts with
  | nil => rfl
  | cons x t ih =>
    rw [List.foldl_cons, ih _ (fun p hp => hj p (List.mem_cons_of_mem x hp))]
    exact getD_set_other (hj x (List.mem_cons_self x t)) _ _

theorem isD14_val_bounds {c : Char} (hc : isD14 c = true) :
    1 ≤ d14val c ∧ d14val c ≤ 4 := by
  simp only [isD14, Bool.or_eq_true, decide_eq_true_eq] at hc
  rcases hc with ((rfl | rfl) | rfl) | rfl <;> simp [d14val]

theorem matchOptAt_dig {s : List Char} {d len : Nat}
    (h : matchOptAt s = some (d, len)) : 1 ≤ d ∧ d ≤ 4 := by
  unfold matchOptAt at h
  split at h
  case _ r =>
    dsimp only at h
    split at h
    case _ c r2 =>
      split at h
      case isTrue hc =>
        split at h
        · simp only [Option.some.injEq, Prod.mk.injEq] at h
          obtain ⟨rfl, -⟩ := h
          exact isD14_val_bounds hc
        · exact absurd h (by simp)
      case isFalse => exact absurd h (by simp)
    case _ => exact absurd h (by simp)
  case _ => exact absurd h (by simp)

theorem optMarkersGo_dig (s : List Char) :
    ∀ (skip i : Nat), ∀ m ∈ optMarkersGo skip i s, 1 ≤ m.dig ∧ m.dig ≤ 4 := by
  induction s with
  | nil => intro skip i m hm; simp [optMarkersGo] at hm
  | cons c r ih =>
    intro skip i m hm
    cases skip with
    | succ k => exact ih k (i + 1) m hm
    | zero =>
      rw [show optMarkersGo 0 i (c :: r) =
          (match matchOptAt (c :: r) with
           | some (d, len) => ⟨i, d, i + len⟩ :: optMarkersGo (len - 1) (i + 1) r
           | none => optMarkersGo 0 (i + 1) r) from rfl] at hm
      match h : matchOptAt (c :: r) with
      | some (d, len) =>
        rw [h] at hm
        rcases List.mem_cons.1 hm with rfl | hm2
        · exact matchOptAt_dig h
        · exact ih (len - 1) (i + 1) m hm2
      | none =>
        rw [h] at hm
        exact ih 0 (i + 1) m hm

theorem optionMarkers_dig (s : List Char) :
    ∀ m ∈ optionMarkers s, 1 ≤ m.dig ∧ m.dig ≤ 4 :=
  optMarkersGo_dig s 0 0

theorem withNext_map_fst (total : Nat) (ms : List OptMark) :
    (withNext total ms).map (·.1) = ms := by
  induction ms with
  | nil => rfl
  | cons m t ih =>
    cases t with
    | nil => rfl
    | cons m2 t2 => rw [withNext, List.map_cons, ih]

theorem withNext_mem {total : Nat} {ms : List OptMark} {p : OptMark × Nat}
    (h : p ∈ withNext total ms) : p.1 ∈ ms := by
  have := withNext_map_fst total ms
  rw [← this]
  exact List.mem_map_of_mem _ h

theorem foldl_optStep_lookup (q : List Char) :
    ∀ (l : List (OptMark × Nat)) (opts : List (List Char)),
      opts.length = 4 →
      (∀ p ∈ l, 1 ≤ p.1.dig ∧ p.1.dig ≤ 4) →
      (l.map (fun p => p.1.dig)).Nodup →
      ∀ p ∈ l, (l.foldl (optStep q) opts).getD (p.1.dig - 1) [] =
        optSlice q p.1.stop p.2 := by
  intro l
  induction l with
  | nil => intro opts _ _ _ p hp; simp at hp
  | cons x t ih =>
    intro opts hlen hbnd hnd p hp
    rw [List.foldl_cons]
    rcases List.mem_cons.1 hp with rfl | hpt
    · rw [foldl_optStep_untouched q t _ _ ?_]
      · exact getD_set_self
          (by rw [hlen]; have := hbnd p (List.mem_cons_self _ _); omega) _ _
      · intro p' hp'
        have hx := hbnd p (List.mem_cons_self _ _)
        have hp'' := hbnd p' (List.mem_cons_of_mem _ hp')
        have hne : p'.1.dig ≠ p.1.dig := by
          intro hEq
          have hmem : p.1.dig ∈ t.map (fun p => p.1.dig) := by
            rw [← hEq]
            exact List.mem_map_of_mem _ hp'
          exact (List.nodup_cons.1 hnd).1 hmem
        omega
    · exact ih _ (by rw [optStep, List.length_set]; exact hlen)
        (fun p' hp' => hbnd p' (List.mem_cons_of_mem _ hp'))
        (List.nodup_cons.1 hnd).2 p hpt

theorem foldl_optStep_last (q : List Char) :
    ∀ (l : List (OptMark × Nat)) (opts : List (List Char)) (d : Nat)
      (p : OptMark × Nat),
      opts.length = 4 →
      (∀ p' ∈ l, 1 ≤ p'.1.dig ∧ p'.1.dig ≤ 4) →
      (l.filter (fun x => x.1.dig = d)).getLast? = some p →
      1 ≤ d ∧ d ≤ 4 ∧
        (l.foldl (optStep q) opts).getD (d - 1) [] = optSlice q p.1.stop p.2 := by
  intro l
  induction l with
  | nil => intro opts d p _ _ hlast; simp at hlast
  | cons x t ih =>
    intro opts d p hlen hbnd hlast
    rw [List.foldl_cons]
    match hft : (t.filter (fun x => x.1.dig = d)).getLast? with
    | some p' =>
      obtain ⟨a, b, hab⟩ : ∃ a b, t.filter (fun x => x.1.dig = d) = a :: b := by
        cases hn : t.filter (fun x => x.1.dig = d) with
        | nil => rw [hn] at hft; simp at hft
        | cons a b => exact ⟨a, b, rfl⟩
      have hsame : ((x :: t).filter (fun y => y.1.dig = d)).getLast? = some p' := by
        rw [List.filter_cons]
        split
        · rw [hab, List.getLast?_cons_cons, ← hab, hft]
        · exact hft
      have hp : p = p' := by
        rw [hsame] at hlast
        injection hlast with h'
        exact h'.symm
      rw [hp]
      exact ih _ d p' (by rw [optStep, List.length_set]; exact hlen)
        (fun p'' hp'' => hbnd p'' (List.mem_cons_of_mem _ hp'')) hft
    | none =>
      have htnil : t.filter (fun x => x.1.dig = d) = [] := by
        cases hn : t.filter (fun x => x.1.dig = d) with
        | nil => rfl
        | cons a b => rw [hn] at hft; simp at hft
      rw [List.filter_cons] at hlast
      by_cases hxd : x.1.dig = d
      · rw [if_pos (by simpa using hxd), htnil] at hlast
        have hp : p = x := by
          have := hlast
          simp only [List.getLast?_singleton, Option.some.injEq] at this
          exact this.symm
        subst hp
        have hxb := hbnd p (List.mem_cons_self _ _)
        refine ⟨by omega, by omega, ?_⟩
        rw [foldl_optStep_untouched q t _ _ ?_]
        · rw [← hxd]
          exact getD_set_self (by rw [hlen]; omega) _ _
        · intro p' hp'
          have hp'' := hbnd p' (List.mem_cons_of_mem _ hp')
          have : p'.1.dig ≠ d := by
            intro hEq
            have : p' ∈ t.filter (fun x => x.1.dig = d) :=
              List.mem_filter.2 ⟨hp', by simpa using hEq⟩
            rw [htnil] at this
            simp at this
          omega
      · rw [if_neg (by simpa using hxd), htnil] at hlast
        simp at hlast

/-! ## Answer-index bounds -/

theorem matchMarkerAt_dig {s : List Char} {d len : Nat}
    (h : matchMarkerAt s = some (d, len)) : 1 ≤ d ∧ d ≤ 4 := by
  unfold matchMarkerAt at h
  split at h
  · dsimp only at h
    split at h
    case _ c r2 =>
      split at h
      case isTrue hc =>
        simp only [Option.some.injEq, Prod.mk.injEq] at h
        obtain ⟨rfl, -⟩ := h
        exact isD14_val_bounds hc
      case isFalse => exact absurd h (by simp)
    case _ => exact absurd h (by simp)
  · exact absurd h (by simp)

theorem markerSearchD_bounds {s : List Char} {d : Nat}
    (h : markerSearchD s = some d) : 1 ≤ d ∧ d ≤ 4 := by
  induction s with
  | nil => simp [markerSearchD] at h
  | cons c rest ih =>
    unfold markerSearchD at h
    split at h
    case _ d' len hm =>
      injection h with h'
      subst h'
      exact matchMarkerAt_dig hm
    case _ => exact ih h

theorem firstD14_bounds {s : List Char} {d : Nat}
    (h : firstD14 s = some d) : 1 ≤ d ∧ d ≤ 4 := by
  induction s with
  | nil => simp [firstD14] at h
  | cons c rest ih =>
    unfold firstD14 at h
    split at h
    case isTrue hc =>
      injection h with h'
      subst h'
      exact isD14_val_bounds hc
    case isFalse => exact ih h

theorem bs4AnswerIdx_bounds {acell qcell : Td} {i : Nat}
    (h : bs4AnswerIdx acell qcell = some i) : 1 ≤ i ∧ i ≤ 4 := by
  unfold bs4AnswerIdx at h
  split at h
  case _ d hm =>
    injection h with h'
    subst h'
    unfold spanMarkerDigit at hm
    split at hm
    · exact markerSearchD_bounds hm
    · exact absurd hm (by simp)
  case _ => exact firstD14_bounds h

theorem rxAnswerIdx_bounds {c1 c2 : List Char} {i : Nat}
    (h : rxAnswerIdx c1 c2 = some i) : 1 ≤ i ∧ i ≤ 4 := by
  unfold rxAnswerIdx at h
  split at h
  case _ d hm =>
    injection h with h'
    subst h'
    exact markerSearchD_bounds hm
  case _ => exact firstD14_bounds h

/-! ## Record-shape facts -/

theorem parseQuestionText_opts_len (q : List Char) :
    (parseQuestionText q).2.length = 4 := by
  unfold parseQuestionText
  split
  · dsimp only
    split <;> rfl
  · dsimp only
    rw [assignOpts, foldl_optStep_length]
    rfl

theorem buildRecord_opts_len (idx : Option Nat) (q : List Char) :
    (buildRecord idx q).options.length = 4 :=
  parseQuestionText_opts_len q

theorem buildRecord_answer_mem (idx : Option Nat) (q : List Char) :
    (buildRecord idx q).answer = [] ∨
      (buildRecord idx q).answer ∈ (buildRecord idx q).options := by
  have hlen := parseQuestionText_opts_len q
  show mkAnswer idx (parseQuestionText q).2 = [] ∨
    mkAnswer idx (parseQuestionText q).2 ∈ (parseQuestionText q).2
  cases idx with
  | none => exact Or.inl rfl
  | some i =>
    by_cases hi : 1 ≤ i ∧ i ≤ 4
    · right
      have hlt : i - 1 < (parseQuestionText q).2.length := by omega
      simp only [mkAnswer, if_pos hi]
      rw [List.getD_eq_getElem _ _ hlt]
      exact List.getElem_mem hlt
    · left
      simp [mkAnswer, if_neg hi]

theorem bs4Row_eq_some {tds : Row} {r : QuestionRecord}
    (h : bs4Row tds = some r) : ∃ t1 t2, r = bs4Process t1 t2 := by
  unfold bs4Row at h
  split at h
  · exact absurd h (by simp)
  case _ t0 rest =>
    split at h
    · exact absurd h (by simp)
    · split at h
      · exact absurd h (by simp)
      · cases rest with
        | nil => exact absurd h (by simp)
        | cons t1 rest1 =>
          cases rest1 with
          | nil => exact absurd h (by simp)
          | cons t2 tail =>
            refine ⟨t1, t2, ?_⟩
            injection h with h'
            exact h'.symm

theorem rxRow_eq_some {tr : List Char} {r : QuestionRecord}
    (h : rxRow tr = some r) : ∃ c1 c2, r = rxProcess c1 c2 := by
  unfold rxRow at h
  split at h
  · exact absurd h (by simp)
  case _ first rest heq =>
    split at h
    · exact absurd h (by simp)
    · split at h
      · exact absurd h (by simp)
      · cases rest with
        | nil => exact absurd h (by simp)
        | cons c1 rest1 =>
          cases rest1 with
          | nil => exact absurd h (by simp)
          | cons c2 tail =>
            refine ⟨c1, c2, ?_⟩
            injection h with h'
            exact h'.symm

/-! ## Claim C5 -/

/-- Claim C5: for every qualifying row whose extracted question text
contains no `(N)` marker, if the text splits into at least 5 non-empty
trimmed lines then line 1 becomes the title and lines 2–5 become options
1–4 in order; otherwise the entire extracted text becomes the title and
all four options remain the empty string. -/
theorem c5_no_marker_fallback (q : List Char) (h : optionMarkers q = []) :
    (5 ≤ (neLines q).length →
      parseQuestionText q =
        ((neLines q).getD 0 [],
         [(neLines q).getD 1 [], (neLines q).getD 2 [],
          (neLines q).getD 3 [], (neLines q).getD 4 []])) ∧
    ((neLines q).length < 5 →
      parseQuestionText q = (q, [[], [], [], []])) := by
  unfold parseQuestionText
  rw [h]
  constructor
  · intro h5
    simp only [if_pos h5]
  · intro h5
    rw [if_neg (by omega)]
    rfl

theorem c5_witness :
    optionMarkers "題幹\n甲\n乙\n丙\n丁".data = [] ∧
    parseQuestionText "題幹\n甲\n乙\n丙\n丁".data =
      ("題幹".data, ["甲".data, "乙".data, "丙".data, "丁".data]) :=
  ⟨by decide,
   by
    have := (c5_no_marker_fallback "題幹\n甲\n乙\n丙\n丁".data (by decide)).1
      (by decide)
    rw [this]
    decide⟩

/-! ## Claim C6 -/

/-- Claim C6: every record emitted by either path has exactly 4 option
slots, and its answer is the empty string or one of its 4 options. -/
theorem c6_invariant :
    (∀ (doc : Doc) (r : QuestionRecord), r ∈ extractQuestionsBs4 doc →
       r.options.length = 4 ∧ (r.answer = [] ∨ r.answer ∈ r.options)) ∧
    (∀ (html : List Char) (r : QuestionRecord), r ∈ extractQuestionsRx html →
       r.options.length = 4 ∧ (r.answer = [] ∨ r.answer ∈ r.options)) := by
  constructor
  · intro doc r hr
    obtain ⟨row, -, hrow⟩ := List.mem_filterMap.1 hr
    obtain ⟨t1, t2, rfl⟩ := bs4Row_eq_some hrow
    exact ⟨buildRecord_opts_len _ _, buildRecord_answer_mem _ _⟩
  · intro html r hr
    obtain ⟨tr, -, htr⟩ := List.mem_filterMap.1 hr
    obtain ⟨c1, c2, rfl⟩ := rxRow_eq_some htr
    exact ⟨buildRecord_opts_len _ _, buildRecord_answer_mem _ _⟩

theorem c6_witness :
    w6rec.options.length = 4 ∧ (w6rec.answer = [] ∨ w6rec.answer ∈ w6rec.options) :=
  c6_invariant.1 [hdrRow, dataRow] w6rec (by decide)

/-! ## Claim C9 -/

/-- Claim C9: missing input file → error outcome, nothing written; zero
extracted records → error outcome, nothing written; an output is written
exactly when the input exists and at least one record is extracted, and
then it holds the extracted records. -/
theorem c9_main_flow (extract : List Char → List QuestionRecord)
    (ex : Bool) (content : List Char) :
    (ex = false → mainModel extract ex content = .missingFile) ∧
    (ex = true → extract content = [] → mainModel extract ex content = .noRows) ∧
    (ex = true → extract content ≠ [] →
      mainModel extract ex content = .wrote (extract content)) ∧
    (∀ rows, mainModel extract ex content = .wrote rows →
      ex = true ∧ rows = extract content ∧ rows ≠ []) := by
  refine ⟨?_, ?_, ?_, ?_⟩
  · intro hex; simp [mainModel, hex]
  · intro hex hempty; simp [mainModel, hex, hempty]
  · intro hex hne
    simp only [mainModel, hex, Bool.not_true, Bool.false_eq_true, if_false]
    rw [if_neg (by simpa [List.isEmpty_iff] using hne)]
  · intro rows hw
    unfold mainModel at hw
    split at hw
    · exact absurd hw (by simp)
    · split at hw
      · exact absurd hw (by simp)
      · next hex hemp =>
        refine ⟨by revert hex; cases ex <;> simp, ?_, ?_⟩
        · injection hw with h'; exact h'.symm
        · injection hw with h'
          subst h'
          simpa [List.isEmpty_iff] using hemp

theorem c9_witness :
    mainModel extractQuestionsRx true (renderDoc [hdrRow, dataRow]) =
      .wrote (extractQuestionsRx (renderDoc [hdrRow, dataRow])) :=
  (c9_main_flow extractQuestionsRx true (renderDoc [hdrRow, dataRow])).2.2.1
    rfl (by decide)

/-! ## Claim C4 -/

/-- Claim C4: when the question text contains `(N)` markers, the text
after each marker (up to the next marker or the end), whitespace-collapsed
and trimmed, goes into option slot `N − 1` — addressed by the declared
number, not the scan position — and the collapsed, trimmed text before the
first marker becomes the title.  (Stated for pairwise-distinct declared
numbers; duplicate declarations are the subject of claim C8.) -/
theorem c4_declared_number_assignment (q : List Char) (m : OptMark)
    (rest : List OptMark) (hms : optionMarkers q = m :: rest)
    (hnd : ((m :: rest).map OptMark.dig).Nodup) :
    (parseQuestionText q).1 = collapseWs (strip (q.take m.start)) ∧
    ∀ p ∈ withNext q.length (m :: rest),
      (parseQuestionText q).2.getD (p.1.dig - 1) [] = optSlice q p.1.stop p.2 := by
  constructor
  · unfold parseQuestionText
    rw [hms]
  · intro p hp
    unfold parseQuestionText
    rw [hms]
    dsimp only
    unfold assignOpts
    refine foldl_optStep_lookup q _ emptyOpts rfl ?_ ?_ p hp
    · intro p' hp'
      exact optionMarkers_dig q p'.1 (hms ▸ withNext_mem hp')
    · rw [show ((withNext q.length (m :: rest)).map fun p => p.1.dig) =
          ((withNext q.length (m :: rest)).map (·.1)).map OptMark.dig by
        rw [List.map_map]; rfl]
      rw [withNext_map_fst]
      exact hnd

theorem c4_witness :
    optionMarkers "X(2)two(1)one".data = [⟨1, 2, 4⟩, ⟨7, 1, 10⟩] ∧
    (parseQuestionText "X(2)two(1)one".data).1 = "X".data ∧
    (parseQuestionText "X(2)two(1)one".data).2.getD 1 [] = "two".data ∧
    (parseQuestionText "X(2)two(1)one".data).2.getD 0 [] = "one".data := by
  have h := c4_declared_number_assignment "X(2)two(1)one".data ⟨1, 2, 4⟩
    [⟨7, 1, 10⟩] (by decide) (by decide)
  refine ⟨by decide, ?_, ?_, ?_⟩
  · rw [h.1]; decide
  · exact (h.2 (⟨1, 2, 4⟩, 7) (by decide)).trans (by decide)
  · exact (h.2 (⟨7, 1, 10⟩, 13) (by decide)).trans (by decide)

/-! ## Claim C8 -/

/-- Claim C8: when several `(N)` markers declare the same number, the
option emitted for number `N` is the text following the last such marker:
each later assignment overwrites the earlier one.  (`parseQuestionText`
is the shared tail of both parsing paths, so this holds in both.) -/
theorem c8_last_marker_wins (q : List Char) (d : Nat) (p : OptMark × Nat)
    (h : ((withNext q.length (optionMarkers q)).filter
          (fun x => x.1.dig = d)).getLast? = some p) :
    (parseQuestionText q).2.getD (d - 1) [] = optSlice q p.1.stop p.2 := by
  match hms : optionMarkers q with
  | [] =>
    rw [hms] at h
    simp [withNext] at h
  | m :: rest =>
    unfold parseQuestionText
    rw [hms]
    dsimp only
    unfold assignOpts
    refine (foldl_optStep_last q _ emptyOpts d p rfl ?_ ?_).2.2
    · intro p' hp'
      exact optionMarkers_dig q p'.1 (hms ▸ withNext_mem hp')
    · rw [← hms]
      exact h

theorem c8_witness :
    ((withNext "X(1)a(1)b".data.length (optionMarkers "X(1)a(1)b".data)).filter
        (fun x => x.1.dig = 1)).getLast? = some (⟨5, 1, 8⟩, 9) ∧
    (parseQuestionText "X(1)a(1)b".data).2.getD 0 [] = "b".data :=
  ⟨by decide,
   (c8_last_marker_wins "X(1)a(1)b".data 1 (⟨5, 1, 8⟩, 9) (by decide)).trans
     (by decide)⟩

/-! ## Claim C3 -/

/-- Claim C3: in both paths the answer index is resolved by first
searching the question cell for the inline `正確答案為:N` annotation (in
the library path: the marker span), and only if that is absent by taking
the first character 1–4 of the answer cell's plain text; a resolved index
`i` makes the answer exactly `options[i-1]` (even when empty), and an
unresolved index makes it the empty string. -/
theorem c3_answer_resolution :
    (∀ acell qcell : Td,
      (∀ d, spanMarkerDigit qcell = some d → bs4AnswerIdx acell qcell = some d) ∧
      (spanMarkerDigit qcell = none →
        bs4AnswerIdx acell qcell = firstD14 (tdText acell)) ∧
      (∀ i, bs4AnswerIdx acell qcell = some i →
        (bs4Process acell qcell).answer =
          (bs4Process acell qcell).options.getD (i - 1) []) ∧
      (bs4AnswerIdx acell qcell = none → (bs4Process acell qcell).answer = [])) ∧
    (∀ c1 c2 : List Char,
      (∀ d, markerSearchD (cellPlainText c2) = some d →
        rxAnswerIdx c1 c2 = some d) ∧
      (markerSearchD (cellPlainText c2) = none →
        rxAnswerIdx c1 c2 = firstD14 (cellPlainText c1)) ∧
      (∀ i, rxAnswerIdx c1 c2 = some i →
        (rxProcess c1 c2).answer = (rxProcess c1 c2).options.getD (i - 1) []) ∧
      (rxAnswerIdx c1 c2 = none → (rxProcess c1 c2).answer = [])) := by
  constructor
  · intro acell qcell
    refine ⟨?_, ?_, ?_, ?_⟩
    · intro d hd
      unfold bs4AnswerIdx
      rw [hd]
    · intro hn
      unfold bs4AnswerIdx
      rw [hn]
    · intro i hi
      have hb := bs4AnswerIdx_bounds hi
      show mkAnswer (bs4AnswerIdx acell qcell) _ = _
      rw [hi]
      simp only [mkAnswer]
      rw [if_pos hb]
      rfl
    · intro hn
      show mkAnswer (bs4AnswerIdx acell qcell) _ = _
      rw [hn]
      rfl
  · intro c1 c2
    refine ⟨?_, ?_, ?_, ?_⟩
    · intro d hd
      unfold rxAnswerIdx
      rw [hd]
    · intro hn
      unfold rxAnswerIdx
      rw [hn]
    · intro i hi
      have hb := rxAnswerIdx_bounds hi
      show mkAnswer (rxAnswerIdx c1 c2) _ = _
      rw [hi]
      simp only [mkAnswer]
      rw [if_pos hb]
      rfl
    · intro hn
      show mkAnswer (rxAnswerIdx c1 c2) _ = _
      rw [hn]
      rfl

theorem c3_witness :
    bs4AnswerIdx ⟨none, [.text "2".data]⟩
      ⟨none, [.text "題目內容(1)選項一(2)選項二(3)選項三(4)選項四".data]⟩ = some 2 ∧
    (bs4Process ⟨none, [.text "2".data]⟩
      ⟨none, [.text "題目內容(1)選項一(2)選項二(3)選項三(4)選項四".data]⟩).answer =
      (bs4Process ⟨none, [.text "2".data]⟩
        ⟨none, [.text "題目內容(1)選項一(2)選項二(3)選項三(4)選項四".data]⟩).options.getD 1 [] :=
  ⟨by decide,
   (c3_answer_resolution.1 ⟨none, [.text "2".data]⟩
     ⟨none, [.text "題目內容(1)選項一(2)選項二(3)選項三(4)選項四".data]⟩).2.2.1 2
     (by decide)⟩

/-! ## Claim C10 -/

theorem findSpanL_nonSpan (ns : List Node) :
    ns.all nonSpanTop = true → findSpanL ns = none := by
  induction ns with
  | nil => intro _; rfl
  | cons n rest ih =>
    intro hns
    rw [List.all_cons, Bool.and_eq_true] at hns
    have hn : findSpanN n = none := by
      match n, hns.1 with
      | .text s, _ => rfl
      | .br, _ => rfl
    unfold findSpanL
    rw [hn]
    exact ih hns.2

/-- Claim C10: in the library path the inline `正確答案為:N` annotation
sets the answer index only through a span element; a question cell without
spans falls through to the answer cell's digit even when the annotation is
present as plain text — although the annotation is still stripped from the
question text (the concrete row shows the answer following the cell digit
`2`, not the plain-text marker's `3`, with the marker absent from the
title). -/
theorem c10_span_only_annotation :
    (∀ acell qcell : Td, qcell.children.all nonSpanTop = true →
      bs4AnswerIdx acell qcell = firstD14 (tdText acell)) ∧
    extractQuestionsBs4 [c10row] =
      [⟨"題目甲".data, ["A".data, "B".data, "C".data, "D".data], "B".data⟩] ∧
    markerSearchD (qTextOf ⟨none,
      [.text "題目甲正確答案為:3(1)A(2)B(3)C(4)D".data]⟩) = some 3 ∧
    containsSub ansLit "題目甲".data = false := by
  refine ⟨?_, by decide, by decide, by decide⟩
  intro acell qcell hns
  unfold bs4AnswerIdx
  have hsp : spanMarkerDigit qcell = none := by
    unfold spanMarkerDigit
    rw [findSpanL_nonSpan qcell.children hns]
  rw [hsp]

theorem c10_witness :
    bs4AnswerIdx ⟨none, [.text "2".data]⟩
      ⟨none, [.text "題目甲正確答案為:3(1)A(2)B(3)C(4)D".data]⟩ =
      firstD14 (tdText ⟨none, [.text "2".data]⟩) :=
  c10_span_only_annotation.1 ⟨none, [.text "2".data]⟩
    ⟨none, [.text "題目甲正確答案為:3(1)A(2)B(3)C(4)D".data]⟩ (by decide)

/-! ## Claim C7 -/

/-- Claim C7: a qualifying data row whose question cell carries an inline
`正確答案為:3` marker (span) and whose answer cell text `—` holds no
digit yields, in both paths, a record whose answer is option 3's text,
with the marker text stripped from the title. -/
theorem c7_marker_row_scenario :
    extractQuestionsBs4 [c7row] = [c7rec] ∧
    extractQuestionsRx (renderDoc [c7row]) = [c7rec] ∧
    c7rec.answer = c7rec.options.getD 2 [] ∧
    containsSub ansLit c7rec.title = false ∧
    firstD14 "—".data = none := by
  refine ⟨by decide, by decide, by decide, by decide, by decide⟩

/-! ## Claim C2 -/

/-- Claim C2 (amended): in the library path a row contributes a record iff
it qualifies exactly as the claim states (≥ 3 cells, no `colspan` on the
first cell, no header label among the first three cells' text); in the
fallback path the `colspan` condition is row-wide — the scan ranges over
the whole row content, so a `colspan` on any cell disqualifies the row —
with the other conditions unchanged. -/
theorem c2_row_qualification :
    (∀ tds : Row, (bs4Row tds).isSome = bs4Qualifies tds) ∧
    (∀ tr : List Char, (rxRow tr).isSome = rxQualifies tr) := by
  constructor
  · intro tds
    cases tds with
    | nil => rfl
    | cons t0 rest =>
      unfold bs4Row bs4Qualifies
      dsimp only
      by_cases hc : t0.colspan.isSome
      · have hc' : t0.colspan.isNone = false := by
          cases h : t0.colspan <;> simp_all
        rw [if_pos hc, hc']
        simp
      · have hc' : t0.colspan.isNone = true := by
          cases h : t0.colspan <;> simp_all
        rw [if_neg hc, hc']
        by_cases hh : (headerKeyHit (tdText t0) ||
            headerKeyHit (((rest.head?).map tdText).getD []) ||
            headerKeyHit ((((rest.drop 1).head?).map tdText).getD [])) = true
        · rw [if_pos hh, hh]
          simp
        · have hh' : (headerKeyHit (tdText t0) ||
              headerKeyHit (((rest.head?).map tdText).getD []) ||
              headerKeyHit ((((rest.drop 1).head?).map tdText).getD [])) = false := by
            simpa using hh
          rw [if_neg hh, hh']
          cases rest with
          | nil => simp
          | cons t1 rest1 =>
            cases rest1 with
            | nil => simp
            | cons t2 tail =>
              have hlen : (3 : Nat) ≤ (t0 :: t1 :: t2 :: tail).length := by
                simp only [List.length_cons]
                omega
              simp [hlen]
  · intro tr
    unfold rxRow rxQualifies
    cases hts : reTags tdTag tr with
    | nil => simp
    | cons first rest =>
      dsimp only
      by_cases hcs : colspanSearch tr
      · rw [if_pos hcs, hcs]
        simp
      · have hcs' : colspanSearch tr = false := by simpa using hcs
        rw [if_neg hcs, hcs']
        by_cases hh : (headerKeyHit (stripTags first) ||
            headerKeyHit (((rest.head?).map stripTags).getD []) ||
            headerKeyHit ((((rest.drop 1).head?).map stripTags).getD [])) = true
        · rw [if_pos hh, hh]
          simp
        · have hh' : (headerKeyHit (stripTags first) ||
              headerKeyHit (((rest.head?).map stripTags).getD []) ||
              headerKeyHit ((((rest.drop 1).head?).map stripTags).getD [])) = false := by
            simpa using hh
          rw [if_neg hh, hh']
          cases rest with
          | nil => simp
          | cons c1 rest1 =>
            cases rest1 with
            | nil => simp
            | cons c2 tail =>
              have hlen : (3 : Nat) ≤ (first :: c1 :: c2 :: tail).length := by
                simp only [List.length_cons]
                omega
              simp [hlen]

/-- Claim C2, counterexample to the claim as stated: in the fallback path
this row — three cells, first cell without `colspan`, no header labels,
hence qualifying in the claim's sense — is nevertheless skipped, because
the `colspan` on its *third* cell trips the row-wide scan; the library
path keeps it. -/
theorem c2_counterexample :
    reTags trTag cxHtml = [cxTr] ∧
    claimQualifiesRx cxTr = true ∧
    rxRow cxTr = none ∧
    extractQuestionsRx cxHtml = [] ∧
    (extractQuestionsBs4 [cxRow]).length = 1 := by
  refine ⟨by decide, by decide, by decide, by decide, by decide⟩

theorem c2_witness :
    (bs4Row dataRow).isSome = bs4Qualifies dataRow ∧ bs4Qualifies dataRow = true :=
  ⟨c2_row_qualification.1 dataRow, by decide⟩

/-! ## Discharging the scanner hypotheses from well-formedness -/

theorem textOK_mem {s : List Char} (h : textOK s = true) {c : Char}
    (hc : c ∈ s) : ¬(c = '<') ∧ ¬(c = '>') := by
  simp only [textOK, Bool.and_eq_true, List.all_eq_true] at h
  have := h.1 c hc
  simp only [Bool.and_eq_true, Bool.not_eq_true', decide_eq_false_iff_not] at this
  exact this

theorem chCI_lt_of_ne {c : Char} (h : ¬(c = '<')) : chCI '<' c = false := by
  have h1 : decide (c = '<') = false := decide_eq_false h
  have h2 : (('a' ≤ '<' : Bool)) = false := by decide
  simp [chCI, h1, h2]

theorem okSuffix_text_lt {bs : List Char} {s : List Char} (h : textOK s = true) :
    OkSuffix ('<' :: bs) s :=
  okSuffix_of_head_clash (fun c hc => chCI_lt_of_ne (textOK_mem h hc).1)

theorem isDigit09_ne_lt {c : Char} (h : isDigit09 c = true) : ¬(c = '<') := by
  intro hEq
  subst hEq
  exact absurd h (by decide)

theorem isDigit09_ne_gt {c : Char} (h : isDigit09 c = true) : ¬(c = '>') := by
  intro hEq
  subst hEq
  exact absurd h (by decide)

theorem okSuffix_attr {bs : List Char} {o : Option (List Char)}
    (h : colspanOK o = true)
    (h1 : OkSuffix ('<' :: bs) " colspan=\"".data)
    (h2 : OkSuffix ('<' :: bs) "\"".data) :
    OkSuffix ('<' :: bs) (attrRender o) := by
  cases o with
  | none => exact okSuffix_nil _
  | some v =>
    simp only [colspanOK, Bool.and_eq_true, List.all_eq_true] at h
    refine okSuffix_append (okSuffix_append h1 ?_) h2
    exact okSuffix_of_head_clash
      (fun c hc => chCI_lt_of_ne (isDigit09_ne_lt (h.2 c hc)))

theorem okSuffix_item {bs : List Char} (n : Node)
    (hsp : OkSuffix ('<' :: bs) "<span>".data)
    (hsc : OkSuffix ('<' :: bs) "</span>".data)
    (hn : itemWF n = true) : OkSuffix ('<' :: bs) (renderNode n) := by
  match n, hn with
  | .text t, hn =>
    have htOK : textOK t = true := by
      simp only [itemWF, fragWF, Bool.and_eq_true] at hn
      exact hn.1.2
    exact okSuffix_text_lt htOK
  | .span [.text t], hn =>
    have htOK : textOK t = true := by
      simp only [itemWF, fragWF, Bool.and_eq_true] at hn
      exact hn.1.2
    show OkSuffix ('<' :: bs)
      ("<span>".data ++ renderNodes [.text t] ++ "</span>".data)
    rw [show renderNodes [Node.text t] = t ++ [] from rfl, List.append_nil]
    exact okSuffix_append (okSuffix_append hsp (okSuffix_text_lt htOK)) hsc

theorem okSuffix_alt {bs : List Char}
    (hbr : OkSuffix ('<' :: bs) "<br/>".data)
    (hsp : OkSuffix ('<' :: bs) "<span>".data)
    (hsc : OkSuffix ('<' :: bs) "</span>".data) :
    ∀ ns : List Node, altWF ns = true → OkSuffix ('<' :: bs) (renderNodes ns) := by
  intro ns
  induction ns using altWF.induct with
  | case1 => intro h; simp [altWF] at h
  | case2 n =>
    intro h
    rw [show renderNodes [n] = renderNode n ++ renderNodes [] from rfl]
    exact okSuffix_append (okSuffix_item n hsp hsc (by simpa [altWF] using h))
      (okSuffix_nil _)
  | case3 n rest ih =>
    intro h
    simp only [altWF, Bool.and_eq_true] at h
    rw [show renderNodes (n :: .br :: rest) =
        renderNode n ++ ("<br/>".data ++ renderNodes rest) from rfl]
    exact okSuffix_append (okSuffix_item n hsp hsc h.1)
      (okSuffix_append hbr (ih h.2))
  | case4 => intro h; simp [altWF] at h

/-- Cell-level content facts extracted from `rowWF`. -/
theorem rowWF_mem {tds : Row} (h : rowWF tds = true) :
    ∀ td ∈ tds, colspanOK td.colspan = true ∧
      ((∃ s, td.children = [.text s] ∧ textOK s = true) ∨
        altWF td.children = true) := by
  match tds with
  | [] => intro td htd; simp at htd
  | t0 :: rest =>
    simp only [rowWF, Bool.and_eq_true, List.all_eq_true] at h
    obtain ⟨⟨⟨hcs0, hsc0⟩, hrest⟩, htail⟩ := h
    intro td htd
    rcases List.mem_cons.1 htd with rfl | htd1
    · refine ⟨hcs0, Or.inl ?_⟩
      revert hsc0
      unfold simpleCell
      split
      · exact fun h' => ⟨_, by assumption, h'⟩
      · intro h'; exact absurd h' (by simp)
    · have hattr : colspanOK td.colspan = true := by
        have := hrest td htd1
        simp only [Bool.and_eq_true] at this
        cases hcs : td.colspan with
        | none => rfl
        | some v => rw [hcs] at this; simp at this
      refine ⟨hattr, ?_⟩
      match rest, htail, htd1 with
      | t1 :: rest2, htail, htd1 =>
        simp only [Bool.and_eq_true] at htail
        rcases List.mem_cons.1 htd1 with rfl | htd2
        · left
          have hsc1 := htail.1
          revert hsc1
          unfold simpleCell
          split
          · exact fun h' => ⟨_, by assumption, h'⟩
          · intro h'; exact absurd h' (by simp)
        · match rest2, htail, htd2 with
          | t2 :: rest3, htail, htd2 =>
            have hq := htail.2
            simp only [Bool.and_eq_true] at hq
            rcases List.mem_cons.1 htd2 with rfl | htd3
            · right
              have := hq.1
              simp only [qcellWF, Bool.and_eq_true] at this
              exact this.1.1
            · left
              have hsc3 : simpleCell td = true := by
                have := hq.2
                simp only [List.all_eq_true] at this
                exact this td htd3
              revert hsc3
              unfold simpleCell
              split
              · exact fun h' => ⟨_, by assumption, h'⟩
              · intro h'; exact absurd h' (by simp)

theorem okSuffix_cellContent {bs : List Char} {td : Td}
    (hbr : OkSuffix ('<' :: bs) "<br/>".data)
    (hsp : OkSuffix ('<' :: bs) "<span>".data)
    (hsc : OkSuffix ('<' :: bs) "</span>".data)
    (h : (∃ s, td.children = [.text s] ∧ textOK s = true) ∨
      altWF td.children = true) :
    OkSuffix ('<' :: bs) (renderNodes td.children) := by
  rcases h with ⟨s, hch, hOK⟩ | halt
  · rw [hch]
    rw [show renderNodes [Node.text s] = s ++ [] from rfl, List.append_nil]
    exact okSuffix_text_lt hOK
  · exact okSuffix_alt hbr hsp hsc td.children halt

theorem okTd_br : OkSuffix closeTd "<br/>".data := okSuffix_of_clashAll (by decide)

theorem okTd_sp : OkSuffix closeTd "<span>".data :=
  okSuffix_of_clashAll (by decide)

theorem okTd_sc : OkSuffix closeTd "</span>".data :=
  okSuffix_of_clashAll (by decide)

theorem okTr_br : OkSuffix closeTr "<br/>".data := okSuffix_of_clashAll (by decide)

theorem okTr_sp : OkSuffix closeTr "<span>".data :=
  okSuffix_of_clashAll (by decide)

theorem okTr_sc : OkSuffix closeTr "</span>".data :=
  okSuffix_of_clashAll (by decide)

theorem okTr_tdopen : OkSuffix closeTr "<td".data :=
  okSuffix_of_clashAll (by decide)

theorem okTr_attrlit : OkSuffix closeTr " colspan=\"".data :=
  okSuffix_of_clashAll (by decide)

theorem okTr_quote : OkSuffix closeTr "\"".data :=
  okSuffix_of_clashAll (by decide)

theorem okTr_gtlit : OkSuffix closeTr ">".data :=
  okSuffix_of_clashAll (by decide)

theorem okTr_tdclose : OkSuffix closeTr "</td>".data :=
  okSuffix_of_clashAll (by decide)

theorem attr_no_gt {o : Option (List Char)} (h : colspanOK o = true) :
    ∀ c ∈ attrRender o, ¬(c = '>') := by
  cases o with
  | none => intro c hc; simp [attrRender] at hc
  | some v =>
    intro c hc
    simp only [colspanOK, Bool.and_eq_true, List.all_eq_true] at h
    simp only [attrRender, List.append_assoc, List.mem_append] at hc
    rcases hc with hc | hc | hc
    · fin_cases hc <;> decide
    · exact isDigit09_ne_gt (h.2 c hc)
    · fin_cases hc <;> decide

/-- The per-`td` hypotheses of `reTagsFull_rowInner`, from `rowWF`. -/
theorem rowWF_reTags {tds : Row} (h : rowWF tds = true) :
    reTagsFull tdTag (renderRowInner tds) =
      tds.map (fun td => (attrRender td.colspan, renderNodes td.children)) := by
  apply reTagsFull_rowInner
  intro td htd
  obtain ⟨hattr, hcont⟩ := rowWF_mem h td htd
  exact ⟨attr_no_gt hattr, okSuffix_cellContent okTd_br okTd_sp okTd_sc hcont⟩

theorem okSuffix_closeTr_td {td : Td} (hattr : colspanOK td.colspan = true)
    (hcont : (∃ s, td.children = [.text s] ∧ textOK s = true) ∨
      altWF td.children = true) :
    OkSuffix closeTr (renderTd td) := by
  unfold renderTd
  refine okSuffix_append (okSuffix_append (okSuffix_append (okSuffix_append
    okTr_tdopen ?_) okTr_gtlit) ?_) okTr_tdclose
  · exact okSuffix_attr hattr okTr_attrlit okTr_quote
  · exact okSuffix_cellContent okTr_br okTr_sp okTr_sc hcont

theorem okSuffix_closeTr_rowInner {tds : Row} (h : rowWF tds = true) :
    OkSuffix closeTr (renderRowInner tds) := by
  have H := rowWF_mem h
  clear h
  induction tds with
  | nil => exact okSuffix_nil _
  | cons td rest ih =>
    rw [show renderRowInner (td :: rest) = renderTd td ++ renderRowInner rest by
      simp [renderRowInner]]
    obtain ⟨hattr, hcont⟩ := H td (List.mem_cons_self td rest)
    exact okSuffix_append (okSuffix_closeTr_td hattr hcont)
      (ih (fun td' h' => H td' (List.mem_cons_of_mem td h')))

/-- The row list delivered by the `<tr>` scanner on a well-formed
document. -/
theorem docWF_reTrs {doc : Doc} (h : docWF doc = true) :
    reTagsFull trTag (renderDoc doc) =
      doc.map (fun row => ([], renderRowInner row)) := by
  apply reTagsFull_doc
  intro row hrow
  simp only [docWF, List.all_eq_true] at h
  exact okSuffix_closeTr_rowInner (h row hrow)

/-! ## Text-extraction parity -/

theorem tagStrip_id {s : List Char} (h : ∀ c ∈ s, ¬(c = '<')) :
    tagStrip s = s := by
  induction s with
  | nil => rfl
  | cons c rest ih =>
    rw [tagStrip_keep (Or.inl (h c (List.mem_cons_self c rest)))]
    rw [ih (fun c' hc' => h c' (List.mem_cons_of_mem c hc'))]

theorem brSub_id {s : List Char} (h : ∀ c ∈ s, ¬(c = '<')) :
    brSub s = s := by
  induction s with
  | nil => rfl
  | cons c rest ih =>
    have hm : matchBrAt (c :: rest) = none := by
      unfold matchBrAt
      rw [if_neg ?_]
      show ¬isPfxCI ['<', 'b', 'r'] (c :: rest) = true
      simp [isPfxCI, chCI_lt_of_ne (h c (List.mem_cons_self c rest))]
    rw [brSub_nomatch hm, ih (fun c' hc' => h c' (List.mem_cons_of_mem c hc'))]

theorem length_stripR_le (s : List Char) : (stripR s).length ≤ s.length := by
  unfold stripR
  rw [List.length_reverse]
  calc (s.reverse.dropWhile pyWs).length ≤ s.reverse.length :=
        length_dropWhile_le _ _
    _ = s.length := List.length_reverse s

theorem length_stripL_le (s : List Char) : (stripL s).length ≤ s.length :=
  length_dropWhile_le _ _

theorem strip_self_head {c : Char} {rest : List Char}
    (h : strip (c :: rest) = c :: rest) : ¬pyWs c = true := by
  intro hws
  have h1 : stripL (c :: rest) = rest.dropWhile pyWs := by
    unfold stripL
    rw [List.dropWhile_cons_of_pos hws]
  have h2 : (strip (c :: rest)).length ≤ rest.length := by
    unfold strip
    rw [h1]
    calc (stripR (rest.dropWhile pyWs)).length
        ≤ (rest.dropWhile pyWs).length := length_stripR_le _
      _ ≤ rest.length := length_dropWhile_le _ _
  rw [h] at h2
  simp at h2

theorem strip_self_last {pre : List Char} {d : Char}
    (h : strip (pre ++ [d]) = pre ++ [d]) : ¬pyWs d = true := by
  intro hws
  set t := pre ++ [d] with ht
  have htne : t ≠ [] := by simp [ht]
  have h1 : stripL t <:+ t := List.dropWhile_suffix pyWs
  cases hsl : stripL t with
  | nil =>
    have : strip t = [] := by
      unfold strip
      rw [hsl]
      rfl
    rw [h] at this
    exact absurd this htne
  | cons a s1 =>
    obtain ⟨p, hp⟩ := h1
    rw [hsl] at hp
    have hlast : (a :: s1).getLast (by simp) = d := by
      have h4 : (p ++ (a :: s1)).getLast
          (List.append_ne_nil_of_right_ne_nil p (by simp)) = d := by
        have h5 : ∀ (u : List Char) (hu : u ≠ []), u = pre ++ [d] →
            u.getLast hu = d := by
          intro u hu hEq
          subst hEq
          exact List.getLast_append_singleton pre
        exact h5 _ _ (by rw [hp, ht])
      rw [List.getLast_append' p (a :: s1) (by simp)] at h4
      exact h4
    have hrev : (a :: s1).reverse = d :: (a :: s1).reverse.tail := by
      have h3 : (a :: s1).reverse.head (by simp) = d := by
        rw [List.head_reverse]
        exact hlast
      rw [← h3]
      exact (List.head_cons_tail _ _).symm
    have h2 : (strip t).length < t.length := by
      unfold strip
      rw [hsl]
      unfold stripR
      rw [hrev, List.dropWhile_cons_of_pos hws]
      have hd1 : ((a :: s1).reverse.tail.dropWhile pyWs).length ≤ s1.length := by
        calc ((a :: s1).reverse.tail.dropWhile pyWs).length
            ≤ (a :: s1).reverse.tail.length := length_dropWhile_le _ _
          _ = s1.length := by simp
      have hd2 : s1.length + 1 ≤ t.length := by
        have : (a :: s1).length ≤ t.length := by
          rw [← hp]
          simp
        simpa using this
      rw [List.length_reverse]
      omega
    rw [h] at h2
    simp at h2

theorem stripL_of_head {c : Char} {rest : List Char} (h : ¬pyWs c = true) :
    stripL (c :: rest) = c :: rest := by
  unfold stripL
  rw [List.dropWhile_cons_of_neg (by simpa using h)]

theorem stripR_of_last {pre : List Char} {d : Char} (h : ¬pyWs d = true) :
    stripR (pre ++ [d]) = pre ++ [d] := by
  unfold stripR
  rw [List.reverse_append]
  simp only [List.reverse_cons, List.reverse_nil, List.nil_append,
    List.singleton_append]
  rw [List.dropWhile_cons_of_neg (by simpa using h)]
  simp

theorem strip_eq_self_of {s : List Char} {c d : Char} {s1 s2 : List Char}
    (h1 : s = c :: s1) (hc : ¬pyWs c = true)
    (h2 : s = s2 ++ [d]) (hd : ¬pyWs d = true) : strip s = s := by
  unfold strip
  rw [h1, stripL_of_head hc, ← h1, h2, stripR_of_last hd]

/-! ## Per-item render lemmas -/

theorem itemWF_frag {n : Node} (h : itemWF n = true) :
    fragWF (itemText n) = true := by
  match n, h with
  | .text t, h =>
    simp only [itemWF, Bool.and_eq_true] at h
    exact h.1
  | .span [.text t], h =>
    simp only [itemWF, Bool.and_eq_true] at h
    exact h.1

theorem nodeStrings_item {n : Node} (h : itemWF n = true) :
    nodeStrings n = [itemText n] := by
  match n, h with
  | .text t, _ => rfl
  | .span [.text t], _ => rfl

theorem brSub_okpass {a : List Char} (y : List Char)
    (h : OkSuffix ['<', 'b', 'r'] a) : brSub (a ++ y) = a ++ brSub y := by
  induction a with
  | nil => rfl
  | cons c rest ih =>
    have hm : matchBrAt ((c :: rest) ++ y) = none := by
      unfold matchBrAt
      rw [if_neg ?_]
      show ¬isPfxCI ['<', 'b', 'r'] ((c :: rest) ++ y) = true
      rw [h (c :: rest) y (List.suffix_refl _) (by simp)]
      simp
    rw [show (c :: rest) ++ y = c :: (rest ++ y) from rfl] at hm ⊢
    rw [brSub_nomatch hm]
    rw [ih (fun t z ht hne => h t z (ht.trans (List.suffix_cons c rest)) hne)]
    rfl

theorem okBr_sp : OkSuffix ['<', 'b', 'r'] "<span>".data :=
  okSuffix_of_clashAll (by decide)

theorem okBr_sc : OkSuffix ['<', 'b', 'r'] "</span>".data :=
  okSuffix_of_clashAll (by decide)

theorem item_okBr {n : Node} (hn : itemWF n = true) :
    OkSuffix ['<', 'b', 'r'] (renderNode n) :=
  okSuffix_item n okBr_sp okBr_sc hn

theorem brSub_item_append {n : Node} (hn : itemWF n = true) (y : List Char) :
    brSub (renderNode n ++ y) = renderNode n ++ brSub y :=
  brSub_okpass y (item_okBr hn)

theorem brSub_brtag (y : List Char) :
    brSub ("<br/>".data ++ y) = '\n' :: brSub y := by
  have hm : matchBrAt ('<' :: 'b' :: 'r' :: '/' :: '>' :: y) = some 5 := rfl
  rw [show "<br/>".data ++ y = '<' :: 'b' :: 'r' :: '/' :: '>' :: y from rfl]
  rw [brSub_match hm]
  rfl

theorem tagStrip_append_nolt {a : List Char} (y : List Char)
    (h : ∀ c ∈ a, ¬(c = '<')) : tagStrip (a ++ y) = a ++ tagStrip y := by
  induction a with
  | nil => rfl
  | cons c rest ih =>
    rw [show (c :: rest) ++ y = c :: (rest ++ y) from rfl]
    rw [tagStrip_keep (Or.inl (h c (List.mem_cons_self c rest)))]
    rw [ih (fun c' hc' => h c' (List.mem_cons_of_mem c hc'))]
    rfl

theorem toGtNoNl_append {a : List Char} (x : List Char)
    (h : ∀ c ∈ a, ¬(c = '>') ∧ ¬(c = '\n')) :
    toGtNoNl (a ++ '>' :: x) = some (a.length + 1) := by
  induction a with
  | nil => simp [toGtNoNl]
  | cons c rest ih =>
    rw [show (c :: rest) ++ '>' :: x = c :: (rest ++ '>' :: x) from rfl]
    unfold toGtNoNl
    rw [if_neg (h c (List.mem_cons_self c rest)).1,
      if_neg (h c (List.mem_cons_self c rest)).2]
    rw [ih (fun c' hc' => h c' (List.mem_cons_of_mem c hc'))]
    simp only [Option.map_some', Option.some.injEq]
    simp

theorem tagStrip_drop_tag {a : List Char} (y : List Char)
    (h : ∀ c ∈ a, ¬(c = '>') ∧ ¬(c = '\n')) :
    tagStrip ('<' :: (a ++ '>' :: y)) = tagStrip y := by
  rw [tagStrip_tag rfl (toGtNoNl_append y h)]
  congr 1
  rw [show a.length + 1 = (a ++ ['>']).length by simp]
  rw [show a ++ '>' :: y = (a ++ ['>']) ++ y by simp]
  exact List.drop_left _ _

theorem tagStrip_span_open (y : List Char) :
    tagStrip ("<span>".data ++ y) = tagStrip y := by
  rw [show "<span>".data ++ y = '<' :: ("span".data ++ '>' :: y) from rfl]
  exact tagStrip_drop_tag y (by decide)

theorem tagStrip_span_close (y : List Char) :
    tagStrip ("</span>".data ++ y) = tagStrip y := by
  rw [show "</span>".data ++ y = '<' :: ("/span".data ++ '>' :: y) from rfl]
  exact tagStrip_drop_tag y (by decide)

theorem tagStrip_brtag (y : List Char) :
    tagStrip ("<br/>".data ++ y) = tagStrip y := by
  rw [show "<br/>".data ++ y = '<' :: ("br/".data ++ '>' :: y) from rfl]
  exact tagStrip_drop_tag y (by decide)

theorem fragWF_props {t : List Char} (h : fragWF t = true) :
    t ≠ [] ∧ strip t = t ∧ textOK t = true := by
  simp only [fragWF, Bool.and_eq_true, beq_iff_eq, Bool.not_eq_true'] at h
  refine ⟨?_, h.1.2, h.2⟩
  intro hnil
  rw [hnil] at h
  exact absurd h.1.1 (by decide)

theorem intercalate_single (sep f : List Char) :
    List.intercalate sep [f] = f := by
  simp [List.intercalate]

theorem intercalate_cons2 (sep a b : List Char) (l : List (List Char)) :
    List.intercalate sep (a :: b :: l) =
      a ++ (sep ++ List.intercalate sep (b :: l)) := by
  simp [List.intercalate, List.intersperse]

theorem intercalate_nil_join (l : List (List Char)) :
    List.intercalate ([] : List Char) l = l.join := by
  induction l with
  | nil => rfl
  | cons a l ih =>
    cases l with
    | nil => simp [List.intercalate]
    | cons b l2 =>
      rw [intercalate_cons2, ih]
      simp

theorem tagStrip_item_append {n : Node} (hn : itemWF n = true) (y : List Char) :
    tagStrip (renderNode n ++ y) = itemText n ++ tagStrip y := by
  match n, hn with
  | .text t, hn =>
    have htOK : textOK t = true := by
      simp only [itemWF, fragWF, Bool.and_eq_true] at hn
      exact hn.1.2
    exact tagStrip_append_nolt y (fun c hc => (textOK_mem htOK hc).1)
  | .span [.text t], hn =>
    have htOK : textOK t = true := by
      simp only [itemWF, fragWF, Bool.and_eq_true] at hn
      exact hn.1.2
    show tagStrip (("<span>".data ++ renderNodes [.text t] ++ "</span>".data) ++ y)
      = t ++ tagStrip y
    rw [show renderNodes [Node.text t] = t ++ [] from rfl, List.append_nil]
    rw [show ("<span>".data ++ t ++ "</span>".data) ++ y =
      "<span>".data ++ (t ++ ("</span>".data ++ y)) by simp]
    rw [tagStrip_span_open]
    rw [tagStrip_append_nolt _ (fun c hc => (textOK_mem htOK hc).1)]
    rw [tagStrip_span_close]

/-! ## Alternation-level text parity -/

theorem altFrags_ne_nil : ∀ ns : List Node, altWF ns = true →
    altFrags ns ≠ [] := by
  intro ns
  induction ns using altWF.induct with
  | case1 => intro h; simp [altWF] at h
  | case2 n => intro _; simp [altFrags]
  | case3 n rest ih => intro _; simp [altFrags]
  | case4 => intro h; simp [altWF] at h

theorem altFrags_fragWF : ∀ ns : List Node, altWF ns = true →
    ∀ f ∈ altFrags ns, fragWF f = true := by
  intro ns
  induction ns using altWF.induct with
  | case1 => intro h; simp [altWF] at h
  | case2 n =>
    intro h f hf
    simp only [altFrags, List.mem_singleton] at hf
    subst hf
    exact itemWF_frag (by simpa [altWF] using h)
  | case3 n rest ih =>
    intro h f hf
    simp only [altWF, Bool.and_eq_true] at h
    simp only [altFrags, List.mem_cons] at hf
    rcases hf with rfl | hf
    · exact itemWF_frag h.1
    · exact ih h.2 f hf
  | case4 => intro h; simp [altWF] at h

theorem nodesStrings_alt : ∀ ns : List Node, altWF ns = true →
    nodesStrings ns = altFrags ns := by
  intro ns
  induction ns using altWF.induct with
  | case1 => intro h; simp [altWF] at h
  | case2 n =>
    intro h
    rw [show nodesStrings [n] = nodeStrings n ++ nodesStrings [] from rfl]
    rw [nodeStrings_item (by simpa [altWF] using h)]
    rfl
  | case3 n rest ih =>
    intro h
    simp only [altWF, Bool.and_eq_true] at h
    rw [show nodesStrings (n :: .br :: rest) =
      nodeStrings n ++ (nodeStrings .br ++ nodesStrings rest) from rfl]
    rw [nodeStrings_item h.1, ih h.2]
    rfl
  | case4 => intro h; simp [altWF] at h

theorem mapStripFilter_frags : ∀ fs : List (List Char),
    (∀ f ∈ fs, fragWF f = true) →
    (fs.map strip).filter (fun f => !f.isEmpty) = fs := by
  intro fs
  induction fs with
  | nil => intro _; rfl
  | cons f rest ih =>
    intro h
    have hp := fragWF_props (h f (List.mem_cons_self f rest))
    rw [List.map_cons, List.filter_cons, hp.2.1]
    rw [if_pos ?_]
    · rw [ih (fun g hg => h g (List.mem_cons_of_mem f hg))]
    · show (!f.isEmpty) = true
      cases hf : f with
      | nil => exact absurd hf hp.1
      | cons c r => rfl

theorem getTextStrip_alt (sep : List Char) (ns : List Node)
    (h : altWF ns = true) :
    getTextStrip sep ns = List.intercalate sep (altFrags ns) := by
  unfold getTextStrip
  rw [nodesStrings_alt ns h]
  rw [mapStripFilter_frags _ (altFrags_fragWF ns h)]

theorem cell_text_parity : ∀ ns : List Node, altWF ns = true →
    tagStrip (brSub (renderNodes ns)) =
      List.intercalate ['\n'] (altFrags ns) := by
  intro ns
  induction ns using altWF.induct with
  | case1 => intro h; simp [altWF] at h
  | case2 n =>
    intro h
    have hn : itemWF n = true := by simpa [altWF] using h
    rw [show renderNodes [n] = renderNode n ++ renderNodes [] from rfl]
    rw [show renderNodes ([] : List Node) = [] from rfl]
    rw [brSub_item_append hn []]
    rw [show brSub [] = [] from rfl]
    rw [tagStrip_item_append hn []]
    rw [show tagStrip [] = [] from rfl, List.append_nil]
    rw [show altFrags [n] = [itemText n] from rfl]
    exact (intercalate_single _ _).symm
  | case3 n rest ih =>
    intro h
    simp only [altWF, Bool.and_eq_true] at h
    rw [show renderNodes (n :: .br :: rest) =
      renderNode n ++ ("<br/>".data ++ renderNodes rest) from rfl]
    rw [brSub_item_append h.1]
    rw [brSub_brtag]
    rw [tagStrip_item_append h.1]
    rw [tagStrip_keep (Or.inl (by decide))]
    rw [ih h.2]
    rw [show altFrags (n :: .br :: rest) = itemText n :: altFrags rest from rfl]
    have hne := altFrags_ne_nil rest h.2
    cases hfr : altFrags rest with
    | nil => exact absurd hfr hne
    | cons g l =>
      rw [intercalate_cons2]
      rfl
  | case4 => intro h; simp [altWF] at h

theorem orb_false_left {a b : Bool} (h : (a || b) = false) : a = false := by
  cases a with
  | false => rfl
  | true => simp at h

theorem orb_false_right {a b : Bool} (h : (a || b) = false) : b = false := by
  cases b with
  | false => rfl
  | true => simp at h

theorem isD14_cases {d : Char} (h : isD14 d = true) :
    d = '1' ∨ d = '2' ∨ d = '3' ∨ d = '4' := by
  simp only [isD14, Bool.or_eq_true, decide_eq_true_eq] at h
  tauto

theorem markerTail_shape {s : List Char} {d : Char} (h : markerTail s = some d) :
    isD14 d = true ∧ (s = [':', d] ∨ s = ['：', d] ∨ s = [d]) := by
  unfold markerTail at h
  split at h
  · split at h
    · injection h with h'
      subst h'
      exact ⟨by assumption, Or.inl rfl⟩
    · exact absurd h (by simp)
  · split at h
    · injection h with h'
      subst h'
      exact ⟨by assumption, Or.inr (Or.inl rfl)⟩
    · exact absurd h (by simp)
  · split at h
    · injection h with h'
      subst h'
      exact ⟨by assumption, Or.inr (Or.inr rfl)⟩
    · exact absurd h (by simp)
  · exact absurd h (by simp)

theorem markerForm_match {t : List Char} (h : markerForm t = true)
    (y : List Char) :
    matchMarkerAt (t ++ y) = some (markerDigit t, t.length) := by
  simp only [markerForm, Bool.and_eq_true] at h
  obtain ⟨s, hs⟩ := List.isPrefixOf_iff_prefix.mp h.1
  obtain rfl : t = ansLit ++ s := hs.symm
  have h2 := h.2
  rw [show (ansLit ++ s).drop 5 = s from rfl] at h2
  obtain ⟨d, hd2⟩ := Option.isSome_iff_exists.mp h2
  obtain ⟨hd, hsh⟩ := markerTail_shape hd2
  rcases hsh with rfl | rfl | rfl <;>
    rcases isD14_cases hd with rfl | rfl | rfl | rfl <;> rfl

theorem markerForm_contains {t : List Char} (h : markerForm t = true) :
    containsSub ansLit t = true := by
  simp only [markerForm, Bool.and_eq_true] at h
  cases t with
  | nil => simp [ansLit, List.isPrefixOf] at h
  | cons c rest =>
    simp only [containsSub, Bool.or_eq_true]
    exact Or.inl h.1

theorem ansLit_prefix_split {a z : List Char}
    (h : ansLit.isPrefixOf (a ++ '\n' :: z) = true) :
    ansLit.isPrefixOf a = true := by
  match a with
  | [] =>
    simp only [List.nil_append, ansLit, List.isPrefixOf, Bool.and_eq_true] at h
    exact absurd h.1 (by decide)
  | [c0] =>
    simp only [List.cons_append, List.nil_append, ansLit, List.isPrefixOf,
      Bool.and_eq_true] at h
    exact absurd h.2.1 (by decide)
  | [c0, c1] =>
    simp only [List.cons_append, List.nil_append, ansLit, List.isPrefixOf,
      Bool.and_eq_true] at h
    exact absurd h.2.2.1 (by decide)
  | [c0, c1, c2] =>
    simp only [List.cons_append, List.nil_append, ansLit, List.isPrefixOf,
      Bool.and_eq_true] at h
    exact absurd h.2.2.2.1 (by decide)
  | [c0, c1, c2, c3] =>
    simp only [List.cons_append, List.nil_append, ansLit, List.isPrefixOf,
      Bool.and_eq_true] at h
    exact absurd h.2.2.2.2.1 (by decide)
  | c0 :: c1 :: c2 :: c3 :: c4 :: a' =>
    simp only [List.cons_append, ansLit, List.isPrefixOf,
      Bool.and_eq_true] at h ⊢
    exact ⟨h.1, h.2.1, h.2.2.1, h.2.2.2.1, h.2.2.2.2.1, trivial⟩

/-! ## Marker scanning over fragment-structured text -/

theorem matchMarkerAt_nl (z : List Char) : matchMarkerAt ('\n' :: z) = none := rfl

theorem markerSub_litfree_append {f : List Char} (rest : List Char)
    (hf : containsSub ansLit f = false) :
    markerSub (f ++ '\n' :: rest) = f ++ '\n' :: markerSub rest := by
  induction f with
  | nil => exact markerSub_nomatch (matchMarkerAt_nl rest)
  | cons c f' ih =>
    have hsplit : (ansLit.isPrefixOf (c :: f') || containsSub ansLit f') =
        false := hf
    have hm : matchMarkerAt ((c :: f') ++ '\n' :: rest) = none := by
      unfold matchMarkerAt
      rw [if_neg ?_]
      intro hp
      have := ansLit_prefix_split hp
      rw [orb_false_left hsplit] at this
      exact absurd this (by decide)
    rw [show (c :: f') ++ '\n' :: rest = c :: (f' ++ '\n' :: rest) from rfl]
      at hm ⊢
    rw [markerSub_nomatch hm, ih (orb_false_right hsplit)]
    rfl

theorem markerSub_litfree {f : List Char}
    (hf : containsSub ansLit f = false) : markerSub f = f := by
  induction f with
  | nil => rfl
  | cons c f' ih =>
    have hsplit : (ansLit.isPrefixOf (c :: f') || containsSub ansLit f') =
        false := hf
    have hm : matchMarkerAt (c :: f') = none := by
      unfold matchMarkerAt
      rw [if_neg ?_]
      intro hp
      rw [orb_false_left hsplit] at hp
      exact absurd hp (by decide)
    rw [markerSub_nomatch hm, ih (orb_false_right hsplit)]

theorem markerSearchD_litfree_append {f : List Char} (rest : List Char)
    (hf : containsSub ansLit f = false) :
    markerSearchD (f ++ '\n' :: rest) = markerSearchD rest := by
  induction f with
  | nil => simp only [List.nil_append, markerSearchD, matchMarkerAt_nl]
  | cons c f' ih =>
    have hsplit : (ansLit.isPrefixOf (c :: f') || containsSub ansLit f') =
        false := hf
    have hm : matchMarkerAt ((c :: f') ++ '\n' :: rest) = none := by
      unfold matchMarkerAt
      rw [if_neg ?_]
      intro hp
      have := ansLit_prefix_split hp
      rw [orb_false_left hsplit] at this
      exact absurd this (by decide)
    rw [show (c :: f') ++ '\n' :: rest = c :: (f' ++ '\n' :: rest) from rfl]
      at hm ⊢
    simp only [markerSearchD, hm]
    exact ih (orb_false_right hsplit)

theorem markerSearchD_litfree {f : List Char}
    (hf : containsSub ansLit f = false) : markerSearchD f = none := by
  induction f with
  | nil => rfl
  | cons c f' ih =>
    have hsplit : (ansLit.isPrefixOf (c :: f') || containsSub ansLit f') =
        false := hf
    have hm : matchMarkerAt (c :: f') = none := by
      unfold matchMarkerAt
      rw [if_neg ?_]
      intro hp
      rw [orb_false_left hsplit] at hp
      exact absurd hp (by decide)
    simp only [markerSearchD, hm]
    exact ih (orb_false_right hsplit)

theorem markerForm_cons {t : List Char} (h : markerForm t = true) :
    ∃ t', t = '正' :: t' := by
  simp only [markerForm, Bool.and_eq_true] at h
  obtain ⟨s, hs⟩ := List.isPrefixOf_iff_prefix.mp h.1
  exact ⟨['確', '答', '案', '為'] ++ s, by rw [← hs]; rfl⟩

theorem markerSearchD_marker {t : List Char} (h : markerForm t = true)
    (y : List Char) : markerSearchD (t ++ y) = some (markerDigit t) := by
  obtain ⟨t', rfl⟩ := markerForm_cons h
  have hm := markerForm_match h y
  rw [show ('正' :: t') ++ y = '正' :: (t' ++ y) from rfl] at hm ⊢
  simp only [markerSearchD, hm]

theorem markerSub_marker_append {t : List Char} (h : markerForm t = true)
    (y : List Char) : markerSub (t ++ y) = markerSub y := by
  obtain ⟨t', rfl⟩ := markerForm_cons h
  have hm := markerForm_match h y
  rw [show ('正' :: t') ++ y = '正' :: (t' ++ y) from rfl] at hm ⊢
  rw [markerSub_match hm]
  rw [show '正' :: (t' ++ y) = ('正' :: t') ++ y from rfl]
  rw [List.drop_left]

theorem markerForm_false_of_litfree {f : List Char}
    (hf : containsSub ansLit f = false) : markerForm f = false := by
  cases hx : markerForm f with
  | false => rfl
  | true => rw [markerForm_contains hx] at hf; exact absurd hf (by decide)

theorem markerSearchD_inter : ∀ fs : List (List Char),
    (∀ f ∈ fs, containsSub ansLit f = false ∨ markerForm f = true) →
    markerSearchD (List.intercalate ['\n'] fs) =
      ((fs.find? (fun f => markerForm f)).map markerDigit) := by
  intro fs
  induction fs with
  | nil => intro _; rfl
  | cons f rest ih =>
    intro h
    have hfOk := h f (List.mem_cons_self f rest)
    cases hmf : markerForm f with
    | true =>
      rw [List.find?_cons_of_pos _ hmf]
      cases rest with
      | nil =>
        rw [intercalate_single]
        have hm := markerSearchD_marker hmf []
        rw [List.append_nil] at hm
        rw [hm]
        rfl
      | cons g rest2 =>
        rw [intercalate_cons2]
        rw [show ['\n'] ++ List.intercalate ['\n'] (g :: rest2) =
          '\n' :: List.intercalate ['\n'] (g :: rest2) from rfl]
        rw [markerSearchD_marker hmf]
        rfl
    | false =>
      have hlf : containsSub ansLit f = false := by
        rcases hfOk with h1 | h1
        · exact h1
        · rw [h1] at hmf; exact absurd hmf (by decide)
      rw [List.find?_cons_of_neg _ (by simp [hmf])]
      cases rest with
      | nil =>
        rw [intercalate_single, markerSearchD_litfree hlf]
        rfl
      | cons g rest2 =>
        rw [intercalate_cons2]
        rw [show ['\n'] ++ List.intercalate ['\n'] (g :: rest2) =
          '\n' :: List.intercalate ['\n'] (g :: rest2) from rfl]
        rw [markerSearchD_litfree_append _ hlf]
        exact ih (fun g' hg' => h g' (List.mem_cons_of_mem f hg'))

theorem markerSub_inter : ∀ fs : List (List Char),
    (∀ f ∈ fs, containsSub ansLit f = false ∨ markerForm f = true) →
    markerSub (List.intercalate ['\n'] fs) =
      List.intercalate ['\n']
        (fs.map (fun f => if markerForm f = true then [] else f)) := by
  intro fs
  induction fs with
  | nil => intro _; rfl
  | cons f rest ih =>
    intro h
    have hfOk := h f (List.mem_cons_self f rest)
    have hrest := fun g' hg' => h g' (List.mem_cons_of_mem f hg')
    simp only [List.map_cons]
    cases hmf : markerForm f with
    | true =>
      rw [if_pos rfl]
      cases rest with
      | nil =>
        rw [intercalate_single]
        have hm := markerSub_marker_append hmf []
        rw [List.append_nil] at hm
        rw [hm]
        rfl
      | cons g rest2 =>
        rw [intercalate_cons2]
        rw [show ['\n'] ++ List.intercalate ['\n'] (g :: rest2) =
          '\n' :: List.intercalate ['\n'] (g :: rest2) from rfl]
        rw [markerSub_marker_append hmf]
        rw [markerSub_nomatch (matchMarkerAt_nl _)]
        rw [ih hrest]
        simp only [List.map_cons]
        rw [intercalate_cons2]
        rfl
    | false =>
      have hlf : containsSub ansLit f = false := by
        rcases hfOk with h1 | h1
        · exact h1
        · rw [h1] at hmf; exact absurd hmf (by decide)
      rw [if_neg (by decide)]
      cases rest with
      | nil =>
        rw [intercalate_single, markerSub_litfree hlf, List.map_nil,
          intercalate_single]
      | cons g rest2 =>
        rw [intercalate_cons2]
        rw [show ['\n'] ++ List.intercalate ['\n'] (g :: rest2) =
          '\n' :: List.intercalate ['\n'] (g :: rest2) from rfl]
        rw [markerSub_litfree_append _ hlf]
        rw [ih hrest]
        simp only [List.map_cons]
        rw [intercalate_cons2]
        rfl

/-! ## Strip-invariance of fragment-joined text -/

theorem head?_mem' {α : Type} {l : List α} {a : α} (h : l.head? = some a) :
    a ∈ l := by
  cases l with
  | nil => exact absurd h (by simp)
  | cons b t =>
    have hb : b = a := by simpa using h
    subst hb
    exact List.mem_cons_self b t

theorem getLast?_mem' {α : Type} {l : List α} {a : α}
    (h : l.getLast? = some a) : a ∈ l := by
  induction l with
  | nil => exact absurd h (by simp)
  | cons b t ih =>
    cases t with
    | nil =>
      rw [List.getLast?_singleton] at h
      have hb : b = a := by injection h
      subst hb
      exact List.mem_cons_self b []
    | cons c t2 =>
      rw [List.getLast?_cons_cons] at h
      exact List.mem_cons_of_mem b (ih h)

theorem head?_map' {α β : Type} (f : α → β) (l : List α) :
    (l.map f).head? = (l.head?).map f := by
  cases l <;> rfl

theorem getLast?_map' {α β : Type} (f : α → β) :
    ∀ l : List α, (l.map f).getLast? = (l.getLast?).map f := by
  intro l
  induction l with
  | nil => rfl
  | cons b t ih =>
    cases t with
    | nil => rfl
    | cons c t2 =>
      have h1 : List.map f (b :: c :: t2) = f b :: f c :: List.map f t2 := rfl
      rw [h1, List.getLast?_cons_cons, List.getLast?_cons_cons]
      have h2 : f c :: List.map f t2 = List.map f (c :: t2) := rfl
      rw [h2, ih]

theorem intercalate_head_decomp (glue f : List Char)
    (rest : List (List Char)) :
    ∃ z, List.intercalate glue (f :: rest) = f ++ z := by
  cases rest with
  | nil => exact ⟨[], by rw [intercalate_single, List.append_nil]⟩
  | cons g rest2 =>
    exact ⟨glue ++ List.intercalate glue (g :: rest2),
      intercalate_cons2 glue f g rest2⟩

theorem intercalate_last_decomp (glue : List Char) :
    ∀ fs : List (List Char), ∀ fl : List Char, fs.getLast? = some fl →
      fl ≠ [] → ∃ s2 f2 d, fl = f2 ++ [d] ∧
        List.intercalate glue fs = s2 ++ [d] := by
  intro fs
  induction fs with
  | nil => intro fl h _; exact absurd h (by simp)
  | cons f rest ih =>
    intro fl h hne
    cases rest with
    | nil =>
      rw [List.getLast?_singleton] at h
      obtain rfl : f = fl := by injection h
      obtain ⟨f2, d, rfl⟩ := (List.eq_nil_or_concat f).resolve_left hne
      exact ⟨f2, f2, d, List.concat_eq_append f2 d, by
        rw [intercalate_single]; exact List.concat_eq_append f2 d⟩
    | cons g rest2 =>
      rw [List.getLast?_cons_cons] at h
      obtain ⟨s2, f2, d, hfl, hS⟩ := ih fl h hne
      refine ⟨f ++ (glue ++ s2), f2, d, hfl, ?_⟩
      rw [intercalate_cons2, hS]
      simp [List.append_assoc]

theorem strip_intercalate_ends (glue : List Char) (fs : List (List Char))
    {f0 fl : List Char} (h0 : fs.head? = some f0) (hl : fs.getLast? = some fl)
    (hw0 : fragWF f0 = true) (hwl : fragWF fl = true) :
    strip (List.intercalate glue fs) = List.intercalate glue fs := by
  have hprops0 := fragWF_props hw0
  have hpropsl := fragWF_props hwl
  cases fs with
  | nil => exact absurd h0 (by simp)
  | cons f rest =>
    obtain rfl : f = f0 := by simpa using h0
    obtain ⟨c, f1, rfl⟩ : ∃ c f1, f = c :: f1 := by
      cases hx : f with
      | nil => exact absurd hx hprops0.1
      | cons c f1 => exact ⟨c, f1, rfl⟩
    have hc : ¬pyWs c = true := strip_self_head hprops0.2.1
    obtain ⟨z, hz⟩ := intercalate_head_decomp glue (c :: f1) rest
    obtain ⟨s2, f2, d, hfl, hS⟩ :=
      intercalate_last_decomp glue ((c :: f1) :: rest) fl hl hpropsl.1
    have hd : ¬pyWs d = true := by
      have hsl := hpropsl.2.1
      rw [hfl] at hsl
      exact strip_self_last hsl
    exact strip_eq_self_of (by rw [hz]; rfl) hc hS hd

theorem strip_intercalate_frags (glue : List Char) (fs : List (List Char))
    (hne : fs ≠ []) (hf : ∀ f ∈ fs, fragWF f = true) :
    strip (List.intercalate glue fs) = List.intercalate glue fs := by
  cases fs with
  | nil => exact absurd rfl hne
  | cons f rest =>
    have hl : (f :: rest).getLast? = some ((f :: rest).getLast (by simp)) :=
      List.getLast?_eq_getLast _ (by simp)
    exact strip_intercalate_ends glue (f :: rest) rfl hl
      (hf f (List.mem_cons_self f rest)) (hf _ (getLast?_mem' hl))

theorem stripTags_render_alt : ∀ ns : List Node, altWF ns = true →
    tagStrip (renderNodes ns) = (altFrags ns).join := by
  intro ns
  induction ns using altWF.induct with
  | case1 => intro h; simp [altWF] at h
  | case2 n =>
    intro h
    have hn : itemWF n = true := by simpa [altWF] using h
    rw [show renderNodes [n] = renderNode n ++ renderNodes [] from rfl]
    rw [show renderNodes ([] : List Node) = [] from rfl]
    rw [tagStrip_item_append hn []]
    rw [show tagStrip [] = [] from rfl, List.append_nil]
    simp [altFrags]
  | case3 n rest ih =>
    intro h
    simp only [altWF, Bool.and_eq_true] at h
    rw [show renderNodes (n :: .br :: rest) =
      renderNode n ++ ("<br/>".data ++ renderNodes rest) from rfl]
    rw [tagStrip_item_append h.1]
    rw [tagStrip_brtag]
    rw [ih h.2]
    rw [show altFrags (n :: .br :: rest) = itemText n :: altFrags rest from rfl]
    rfl
  | case4 => intro h; simp [altWF] at h

/-! ## Fragment end-points and the span-marker search -/

theorem itemLitFree_text {n : Node} (h : itemLitFree n = true) :
    containsSub ansLit (itemText n) = false := by
  match n, h with
  | .text t, h =>
    simp only [itemLitFree, Bool.not_eq_true'] at h
    exact h
  | .span [.text t], h =>
    simp only [itemLitFree, Bool.not_eq_true'] at h
    exact h

theorem item_ok {n : Node} (h : itemWF n = true) :
    containsSub ansLit (itemText n) = false ∨
      markerForm (itemText n) = true := by
  match n, h with
  | .text t, h =>
    simp only [itemWF, Bool.and_eq_true, Bool.not_eq_true'] at h
    exact Or.inl h.2
  | .span [.text t], h =>
    simp only [itemWF, Bool.and_eq_true, Bool.or_eq_true,
      Bool.not_eq_true'] at h
    rcases h.2 with h2 | h2
    · exact Or.inr h2
    · exact Or.inl h2

theorem altFrags_head : ∀ ns : List Node, altWF ns = true →
    ∃ n, ns.head? = some n ∧ (altFrags ns).head? = some (itemText n) := by
  intro ns
  induction ns using altWF.induct with
  | case1 => intro h; simp [altWF] at h
  | case2 n => intro _; exact ⟨n, rfl, rfl⟩
  | case3 n rest ih => intro _; exact ⟨n, rfl, rfl⟩
  | case4 => intro h; simp [altWF] at h

theorem altFrags_last : ∀ ns : List Node, altWF ns = true →
    ∃ n, ns.getLast? = some n ∧
      (altFrags ns).getLast? = some (itemText n) := by
  intro ns
  induction ns using altWF.induct with
  | case1 => intro h; simp [altWF] at h
  | case2 n =>
    intro _
    exact ⟨n, List.getLast?_singleton n, List.getLast?_singleton (itemText n)⟩
  | case3 n rest ih =>
    intro h
    simp only [altWF, Bool.and_eq_true] at h
    obtain ⟨m, hm1, hm2⟩ := ih h.2
    refine ⟨m, ?_, ?_⟩
    · rw [List.getLast?_cons_cons]
      cases rest with
      | nil => exact absurd h.2 (by decide)
      | cons r rest2 =>
        rw [List.getLast?_cons_cons]
        exact hm1
    · rw [show altFrags (n :: .br :: rest) = itemText n :: altFrags rest
        from rfl]
      cases hfr : altFrags rest with
      | nil => exact absurd hfr (altFrags_ne_nil rest h.2)
      | cons g l =>
        rw [hfr] at hm2
        rw [List.getLast?_cons_cons]
        exact hm2
  | case4 => intro h; simp [altWF] at h

theorem altFrags_ok : ∀ ns : List Node, altWF ns = true →
    ∀ f ∈ altFrags ns,
      containsSub ansLit f = false ∨ markerForm f = true := by
  intro ns
  induction ns using altWF.induct with
  | case1 => intro h; simp [altWF] at h
  | case2 n =>
    intro h f hf
    simp only [altFrags, List.mem_singleton] at hf
    subst hf
    exact item_ok (by simpa [altWF] using h)
  | case3 n rest ih =>
    intro h f hf
    simp only [altWF, Bool.and_eq_true] at h
    simp only [altFrags, List.mem_cons] at hf
    rcases hf with rfl | hf
    · exact item_ok h.1
    · exact ih h.2 f hf
  | case4 => intro h; simp [altWF] at h

theorem findSpanL_cons_none {n : Node} {rest : List Node}
    (h : findSpanN n = none) : findSpanL (n :: rest) = findSpanL rest := by
  show (match findSpanN n with
    | some sp => some sp | none => findSpanL rest) = findSpanL rest
  rw [h]

theorem findSpanL_cons_some {n : Node} {rest : List Node} {sp : Node}
    (h : findSpanN n = some sp) : findSpanL (n :: rest) = some sp := by
  show (match findSpanN n with
    | some sp => some sp | none => findSpanL rest) = some sp
  rw [h]

theorem findSpanN_item {n : Node} (hn : itemWF n = true) :
    (findSpanN n = none ∧ markerForm (itemText n) = false) ∨
    (findSpanN n = some (.span [.text (itemText n)]) ∧
      markerForm (itemText n) = true) := by
  match n, hn with
  | .text t, hn =>
    left
    refine ⟨rfl, ?_⟩
    simp only [itemWF, Bool.and_eq_true, Bool.not_eq_true'] at hn
    exact markerForm_false_of_litfree hn.2
  | .span [.text t], hn =>
    simp only [itemWF, Bool.and_eq_true, Bool.or_eq_true,
      Bool.not_eq_true'] at hn
    rcases hn.2 with h2 | h2
    · right
      have hcond : spanStringMatches (.span [.text t]) = true := by
        show containsSub ansLit t = true
        exact markerForm_contains h2
      refine ⟨?_, h2⟩
      show (if spanStringMatches (.span [.text t]) then
        some (Node.span [.text t]) else findSpanL [.text t]) = _
      rw [if_pos hcond]
      rfl
    · left
      have hcond : ¬spanStringMatches (.span [.text t]) = true := by
        show ¬containsSub ansLit t = true
        rw [h2]
        simp
      refine ⟨?_, markerForm_false_of_litfree h2⟩
      show (if spanStringMatches (.span [.text t]) then
        some (Node.span [.text t]) else findSpanL [.text t]) = none
      rw [if_neg hcond]
      rfl

theorem spanMarker_alt : ∀ ns : List Node, altWF ns = true →
    (match findSpanL ns with
     | some sp => markerSearchD (nodeStrings sp).join
     | none => none) =
    ((altFrags ns).find? (fun f => markerForm f)).map markerDigit := by
  intro ns
  induction ns using altWF.induct with
  | case1 => intro h; simp [altWF] at h
  | case2 n =>
    intro h
    have hn : itemWF n = true := by simpa [altWF] using h
    rcases findSpanN_item hn with ⟨he, hf⟩ | ⟨he, hf⟩
    · rw [findSpanL_cons_none he]
      rw [show altFrags [n] = [itemText n] from rfl]
      rw [List.find?_cons_of_neg _ (by simp [hf])]
      rfl
    · rw [findSpanL_cons_some he]
      rw [show altFrags [n] = [itemText n] from rfl]
      rw [List.find?_cons_of_pos _ hf]
      show markerSearchD (nodeStrings (.span [.text (itemText n)])).join =
        some (markerDigit (itemText n))
      have hj : (nodeStrings (Node.span [Node.text (itemText n)])).join =
          itemText n := by simp [nodeStrings, nodesStrings]
      rw [hj]
      have hm := markerSearchD_marker hf []
      rw [List.append_nil] at hm
      exact hm
  | case3 n rest ih =>
    intro h
    simp only [altWF, Bool.and_eq_true] at h
    rcases findSpanN_item h.1 with ⟨he, hf⟩ | ⟨he, hf⟩
    · rw [findSpanL_cons_none he,
        findSpanL_cons_none (show findSpanN .br = none from rfl)]
      rw [show altFrags (n :: .br :: rest) = itemText n :: altFrags rest
        from rfl]
      rw [List.find?_cons_of_neg _ (by simp [hf])]
      exact ih h.2
    · rw [findSpanL_cons_some he]
      rw [show altFrags (n :: .br :: rest) = itemText n :: altFrags rest
        from rfl]
      rw [List.find?_cons_of_pos _ hf]
      show markerSearchD (nodeStrings (.span [.text (itemText n)])).join =
        some (markerDigit (itemText n))
      have hj : (nodeStrings (Node.span [Node.text (itemText n)])).join =
          itemText n := by simp [nodeStrings, nodesStrings]
      rw [hj]
      have hm := markerSearchD_marker hf []
      rw [List.append_nil] at hm
      exact hm
  | case4 => intro h; simp [altWF] at h

/-! ## Per-cell text parity between the two paths -/

theorem getTextStrip_single (sep s : List Char) :
    getTextStrip sep [.text s] = strip s := by
  unfold getTextStrip
  rw [show nodesStrings [Node.text s] = [s] from rfl]
  rw [show List.map strip [s] = [strip s] from rfl]
  cases hS : strip s with
  | nil => rfl
  | cons c r =>
    rw [show List.filter (fun f => !f.isEmpty) [c :: r] = [c :: r] from rfl]
    exact intercalate_single sep (c :: r)

theorem tdText_simple {td : Td} {s : List Char}
    (hch : td.children = [.text s]) : tdText td = strip s := by
  unfold tdText
  rw [hch]
  exact getTextStrip_single [] s

theorem stripTags_simple {s : List Char} (hOK : textOK s = true) :
    stripTags (renderNodes [Node.text s]) = strip s := by
  show strip (tagStrip (s ++ [])) = strip s
  rw [List.append_nil, tagStrip_id (fun c hc => (textOK_mem hOK hc).1)]

theorem cellPlainText_simple {s : List Char} (hOK : textOK s = true) :
    cellPlainText (renderNodes [Node.text s]) = strip s := by
  show strip (tagStrip (brSub (s ++ []))) = strip s
  rw [List.append_nil, brSub_id (fun c hc => (textOK_mem hOK hc).1),
    tagStrip_id (fun c hc => (textOK_mem hOK hc).1)]

theorem stripTags_alt {ns : List Node} (h : altWF ns = true) :
    stripTags (renderNodes ns) = getTextStrip [] ns := by
  show strip (tagStrip (renderNodes ns)) = _
  rw [stripTags_render_alt ns h]
  rw [← intercalate_nil_join]
  rw [strip_intercalate_frags [] _ (altFrags_ne_nil ns h)
    (altFrags_fragWF ns h)]
  rw [getTextStrip_alt [] ns h, intercalate_nil_join]

theorem cellPlainText_alt {ns : List Node} (h : altWF ns = true) :
    cellPlainText (renderNodes ns) = getTextStrip ['\n'] ns := by
  show strip (tagStrip (brSub (renderNodes ns))) = _
  rw [cell_text_parity ns h]
  rw [strip_intercalate_frags ['\n'] _ (altFrags_ne_nil ns h)
    (altFrags_fragWF ns h)]
  rw [getTextStrip_alt ['\n'] ns h]

theorem cell_header_parity {td : Td}
    (h : (∃ s, td.children = [.text s] ∧ textOK s = true) ∨
      altWF td.children = true) :
    stripTags (renderNodes td.children) = tdText td := by
  rcases h with ⟨s, hch, hOK⟩ | halt
  · rw [hch, stripTags_simple hOK, tdText_simple hch]
  · rw [stripTags_alt halt]
    rfl

theorem q2_parity {td : Td} (hq : qcellWF td.children = true) :
    strip (markerSub (cellPlainText (renderNodes td.children))) =
      markerSub (qTextOf td) := by
  have hq' := hq
  simp only [qcellWF, Bool.and_eq_true] at hq'
  obtain ⟨⟨halt, hh⟩, hl⟩ := hq'
  obtain ⟨n0, hn0, hf0⟩ := altFrags_head td.children halt
  obtain ⟨nl, hnl, hfl⟩ := altFrags_last td.children halt
  rw [hn0] at hh
  rw [hnl] at hl
  have hm0 : markerForm (itemText n0) = false :=
    markerForm_false_of_litfree (itemLitFree_text hh)
  have hml : markerForm (itemText nl) = false :=
    markerForm_false_of_litfree (itemLitFree_text hl)
  rw [cellPlainText_alt halt]
  show strip (markerSub (getTextStrip ['\n'] td.children)) =
    markerSub (getTextStrip ['\n'] td.children)
  rw [getTextStrip_alt ['\n'] td.children halt]
  rw [markerSub_inter _ (altFrags_ok td.children halt)]
  refine @strip_intercalate_ends ['\n'] _ (itemText n0) (itemText nl)
    ?_ ?_ ?_ ?_
  · rw [head?_map', hf0]
    simp only [Option.map_some', hm0]
    rw [if_neg (by decide)]
  · rw [getLast?_map', hfl]
    simp only [Option.map_some', hml]
    rw [if_neg (by decide)]
  · exact altFrags_fragWF td.children halt _ (head?_mem' hf0)
  · exact altFrags_fragWF td.children halt _ (getLast?_mem' hfl)

/-! ## The row-wide colspan scan on rendered rows -/

theorem colspanSearch_false_of_safePat {s : List Char}
    (h : SafePat colspanLit s) : colspanSearch s = false := by
  induction s with
  | nil => rfl
  | cons c r ih =>
    have h1 : matchColspanAt (c :: r) = false := by
      unfold matchColspanAt
      rw [if_neg ?_]
      intro hp
      have h2 := h (c :: r) [] (List.suffix_refl _) (by simp) (Or.inl rfl)
      rw [List.append_nil] at h2
      have h3 : isPfxCI ['c', 'o', 'l', 's', 'p', 'a', 'n'] (c :: r) =
        false := h2
      rw [h3] at hp
      exact absurd hp (by decide)
    show (matchColspanAt (c :: r) || colspanSearch r) = false
    rw [h1, ih (fun t z ht hne hz =>
      h t z (ht.trans (List.suffix_cons c r)) hne hz)]
    rfl

theorem colspanSearch_of_suffix {s t : List Char} (ht : t <:+ s)
    (h : matchColspanAt t = true) : colspanSearch s = true := by
  induction s with
  | nil =>
    rw [List.suffix_nil] at ht
    subst ht
    exact absurd h (by decide)
  | cons c r ih =>
    rw [List.suffix_cons_iff] at ht
    show (matchColspanAt (c :: r) || colspanSearch r) = true
    rcases ht with rfl | ht
    · rw [h]
      rfl
    · rw [ih ht]
      simp

theorem matchColspanAt_attr (d : Char) (w : List Char) :
    matchColspanAt ('c' :: 'o' :: 'l' :: 's' :: 'p' :: 'a' :: 'n' :: '=' ::
      '"' :: d :: w) = isDigit09 d := rfl

theorem csTag_sp : OkSuffix colspanLit "<span>".data :=
  okSuffix_of_clashAll (by decide)

theorem csTag_sc : OkSuffix colspanLit "</span>".data :=
  okSuffix_of_clashAll (by decide)

theorem csTag_br : OkSuffix colspanLit "<br/>".data :=
  okSuffix_of_clashAll (by decide)

theorem csTag_tdopen : OkSuffix colspanLit "<td".data :=
  okSuffix_of_clashAll (by decide)

theorem csTag_gt : OkSuffix colspanLit ">".data :=
  okSuffix_of_clashAll (by decide)

theorem csTag_tdclose : OkSuffix colspanLit "</td>".data :=
  okSuffix_of_clashAll (by decide)

theorem safePat_append_ok {bad a b : List Char}
    (ha : OkSuffix bad a) (hb : SafePat bad b) : SafePat bad (a ++ b) := by
  intro t z ht hne hz
  rcases suffix_append_cases ht with h | ⟨t₁, ht₁, hne₁, rfl⟩
  · exact hb t z h hne hz
  · rw [List.append_assoc]
    exact ha t₁ (b ++ z) ht₁ hne₁

theorem textOK_nocolspan {s : List Char} (h : textOK s = true) :
    containsSubCI colspanLit s = false := by
  simp only [textOK, Bool.and_eq_true, Bool.not_eq_true'] at h
  exact h.2

theorem safePat_item {n : Node} (hn : itemWF n = true) :
    SafePat colspanLit (renderNode n) := by
  match n, hn with
  | .text t, hn =>
    have htOK : textOK t = true := by
      simp only [itemWF, fragWF, Bool.and_eq_true] at hn
      exact hn.1.2
    exact safePat_colspan_text (textOK_nocolspan htOK)
  | .span [.text t], hn =>
    have htOK : textOK t = true := by
      simp only [itemWF, fragWF, Bool.and_eq_true] at hn
      exact hn.1.2
    rw [show renderNode (.span [.text t]) =
        "<span>".data ++ (t ++ "</span>".data) by
      show ("<span>".data ++ (t ++ [])) ++ "</span>".data = _
      rw [List.append_nil, List.append_assoc]]
    refine safePat_append_ok csTag_sp ?_
    refine safePat_append (safePat_colspan_text (textOK_nocolspan htOK))
      (safePat_of_okSuffix csTag_sc) ?_
    exact Or.inr ⟨"/span>".data, rfl⟩

theorem safePat_alt : ∀ ns : List Node, altWF ns = true →
    SafePat colspanLit (renderNodes ns) := by
  intro ns
  induction ns using altWF.induct with
  | case1 => intro h; simp [altWF] at h
  | case2 n =>
    intro h
    rw [show renderNodes [n] = renderNode n ++ renderNodes [] from rfl]
    exact safePat_append (safePat_item (by simpa [altWF] using h))
      (safePat_nil _) (Or.inl rfl)
  | case3 n rest ih =>
    intro h
    simp only [altWF, Bool.and_eq_true] at h
    rw [show renderNodes (n :: .br :: rest) =
      renderNode n ++ ("<br/>".data ++ renderNodes rest) from rfl]
    refine safePat_append (safePat_item h.1)
      (safePat_append_ok csTag_br (ih h.2)) ?_
    exact Or.inr ⟨"br/>".data ++ renderNodes rest, rfl⟩
  | case4 => intro h; simp [altWF] at h

theorem safePat_cellContent {td : Td}
    (h : (∃ s, td.children = [.text s] ∧ textOK s = true) ∨
      altWF td.children = true) :
    SafePat colspanLit (renderNodes td.children) := by
  rcases h with ⟨s, hch, hOK⟩ | halt
  · rw [hch, show renderNodes [Node.text s] = s ++ [] from rfl,
      List.append_nil]
    exact safePat_colspan_text (textOK_nocolspan hOK)
  · exact safePat_alt td.children halt

theorem safePat_renderTd {td : Td} (hnone : td.colspan = none)
    (h : (∃ s, td.children = [.text s] ∧ textOK s = true) ∨
      altWF td.children = true) :
    SafePat colspanLit (renderTd td) := by
  unfold renderTd
  rw [hnone]
  rw [show attrRender none = ([] : List Char) from rfl, List.append_nil]
  refine safePat_append (safePat_append_ok
    (okSuffix_append csTag_tdopen csTag_gt) (safePat_cellContent h))
    (safePat_of_okSuffix csTag_tdclose) ?_
  exact Or.inr ⟨"/td>".data, rfl⟩

theorem renderTd_head (td : Td) : ∃ z, renderTd td = '<' :: z :=
  ⟨((("td".data ++ attrRender td.colspan) ++ ">".data) ++
    renderNodes td.children) ++ "</td>".data, rfl⟩

theorem safePat_rowInner : ∀ tds : Row,
    (∀ td ∈ tds, td.colspan = none ∧
      ((∃ s, td.children = [.text s] ∧ textOK s = true) ∨
        altWF td.children = true)) →
    SafePat colspanLit (renderRowInner tds) := by
  intro tds
  induction tds with
  | nil => intro _; exact safePat_nil _
  | cons t0 rest ih =>
    intro h
    have h0 := h t0 (List.mem_cons_self t0 rest)
    rw [show renderRowInner (t0 :: rest) =
      renderTd t0 ++ renderRowInner rest from rfl]
    refine safePat_append (safePat_renderTd h0.1 h0.2)
      (ih (fun td htd => h td (List.mem_cons_of_mem t0 htd))) ?_
    cases rest with
    | nil => exact Or.inl rfl
    | cons t1 rest2 =>
      obtain ⟨z, hz⟩ := renderTd_head t1
      refine Or.inr ⟨z ++ renderRowInner rest2, ?_⟩
      rw [show renderRowInner (t1 :: rest2) =
        renderTd t1 ++ renderRowInner rest2 from rfl, hz]
      rfl

theorem colspanSearch_none {tds : Row} (h : rowWF tds = true)
    (h0 : ∀ td ∈ tds, td.colspan = none) :
    colspanSearch (renderRowInner tds) = false := by
  apply colspanSearch_false_of_safePat
  apply safePat_rowInner
  intro td htd
  exact ⟨h0 td htd, (rowWF_mem h td htd).2⟩

theorem colspanSearch_some_cell (d : Char) (v' : List Char) (ch : List Node)
    (rest : Row) (hd : isDigit09 d = true) :
    colspanSearch (renderRowInner
      ((⟨some (d :: v'), ch⟩ : Td) :: rest)) = true := by
  exact @colspanSearch_of_suffix _
    ('c' :: 'o' :: 'l' :: 's' :: 'p' :: 'a' :: 'n' :: '=' :: '"' :: d ::
      (((((v' ++ ['"']) ++ ['>']) ++ renderNodes ch) ++ "</td>".data) ++
        renderRowInner rest))
    ⟨['<', 't', 'd', ' '], rfl⟩
    (by rw [matchColspanAt_attr]; exact hd)

/-! ## Per-row assembly of the path equivalence -/

theorem simpleCell_exists {td : Td} (h : simpleCell td = true) :
    ∃ s, td.children = [.text s] ∧ textOK s = true := by
  unfold simpleCell at h
  split at h
  · rename_i s heq
    exact ⟨s, heq, h⟩
  · exact absurd h (by decide)

theorem answerIdx_parity {t1 t2 : Td}
    (h1 : ∃ s, t1.children = [.text s] ∧ textOK s = true)
    (h2 : qcellWF t2.children = true) :
    rxAnswerIdx (renderNodes t1.children) (renderNodes t2.children) =
      bs4AnswerIdx t1 t2 := by
  obtain ⟨s, hch, hOK⟩ := h1
  have halt : altWF t2.children = true := by
    simp only [qcellWF, Bool.and_eq_true] at h2
    exact h2.1.1
  unfold rxAnswerIdx bs4AnswerIdx
  have hq : markerSearchD (cellPlainText (renderNodes t2.children)) =
      spanMarkerDigit t2 := by
    rw [cellPlainText_alt halt]
    show markerSearchD (getTextStrip ['\n'] t2.children) = _
    rw [getTextStrip_alt ['\n'] t2.children halt]
    rw [markerSearchD_inter _ (altFrags_ok t2.children halt)]
    unfold spanMarkerDigit
    exact (spanMarker_alt t2.children halt).symm
  rw [hq]
  have ha : cellPlainText (renderNodes t1.children) = tdText t1 := by
    rw [hch, cellPlainText_simple hOK, tdText_simple hch]
  rw [ha]

theorem process_parity {t1 t2 : Td}
    (h1 : ∃ s, t1.children = [.text s] ∧ textOK s = true)
    (h2 : qcellWF t2.children = true) :
    rxProcess (renderNodes t1.children) (renderNodes t2.children) =
      bs4Process t1 t2 := by
  unfold rxProcess bs4Process
  rw [answerIdx_parity h1 h2]
  rw [q2_parity h2]

theorem rxRow_renders {tds : Row} (h : rowWF tds = true) :
    rxRow (renderRowInner tds) = bs4Row tds := by
  cases tds with
  | nil => rfl
  | cons t0 rest =>
    obtain ⟨csp, ch0⟩ := t0
    have hre : reTags tdTag (renderRowInner (⟨csp, ch0⟩ :: rest)) =
        renderNodes ch0 ::
          rest.map (fun td => renderNodes td.children) := by
      unfold reTags
      rw [rowWF_reTags h, List.map_map]
      rfl
    cases csp with
    | some v =>
      have hok : colspanOK (some v : Option (List Char)) = true :=
        (rowWF_mem h _ (List.mem_cons_self _ _)).1
      simp only [colspanOK, Bool.and_eq_true, List.all_eq_true,
        Bool.not_eq_true'] at hok
      obtain ⟨d, v', rfl⟩ : ∃ d v', v = d :: v' := by
        cases hx : v with
        | nil => rw [hx] at hok; exact absurd hok.1 (by decide)
        | cons d v' => exact ⟨d, v', rfl⟩
      have hd : isDigit09 d = true := hok.2 d (List.mem_cons_self d v')
      have hcs := colspanSearch_some_cell d v' ch0 rest hd
      unfold rxRow
      rw [hre]
      dsimp only [List.map_cons, List.map_nil, List.head?_cons,
            List.head?_nil, List.drop_succ_cons, List.drop_zero,
            List.drop_nil, Option.map_some', Option.map_none',
            Option.getD_some, Option.getD_none]
      rw [hcs]
      rfl
    | none =>
      have hcs : colspanSearch (renderRowInner (⟨none, ch0⟩ :: rest)) =
          false := by
        apply colspanSearch_none h
        intro td htd
        rcases List.mem_cons.mp htd with rfl | htd2
        · rfl
        · have h' := h
          simp only [rowWF, Bool.and_eq_true] at h'
          have hall := h'.1.2
          rw [List.all_eq_true] at hall
          exact Option.isNone_iff_eq_none.mp (hall td htd2)
      have e0 : stripTags (renderNodes ch0) =
          tdText (⟨none, ch0⟩ : Td) :=
        cell_header_parity (rowWF_mem h _ (List.mem_cons_self _ _)).2
      cases rest with
      | nil =>
        unfold rxRow
        rw [hre]
        dsimp only [List.map_cons, List.map_nil, List.head?_cons,
            List.head?_nil, List.drop_succ_cons, List.drop_zero,
            List.drop_nil, Option.map_some', Option.map_none',
            Option.getD_some, Option.getD_none]
        rw [hcs, e0]
        rfl
      | cons t1 rest2 =>
        have e1 : stripTags (renderNodes t1.children) = tdText t1 :=
          cell_header_parity (rowWF_mem h t1
            (List.mem_cons_of_mem _ (List.mem_cons_self _ _))).2
        cases rest2 with
        | nil =>
          unfold rxRow
          rw [hre]
          dsimp only [List.map_cons, List.map_nil, List.head?_cons,
            List.head?_nil, List.drop_succ_cons, List.drop_zero,
            List.drop_nil, Option.map_some', Option.map_none',
            Option.getD_some, Option.getD_none]
          rw [hcs, e0, e1]
          rfl
        | cons t2 rest3 =>
          have e2 : stripTags (renderNodes t2.children) = tdText t2 :=
            cell_header_parity (rowWF_mem h t2 (List.mem_cons_of_mem _
              (List.mem_cons_of_mem _ (List.mem_cons_self _ _)))).2
          have h' := h
          simp only [rowWF, Bool.and_eq_true] at h'
          have hsimp1 : simpleCell t1 = true := h'.2.1
          have hq2 : qcellWF t2.children = true := h'.2.2.1
          have hp := process_parity (simpleCell_exists hsimp1) hq2
          unfold rxRow
          rw [hre]
          dsimp only [List.map_cons, List.map_nil, List.head?_cons,
            List.head?_nil, List.drop_succ_cons, List.drop_zero,
            List.drop_nil, Option.map_some', Option.map_none',
            Option.getD_some, Option.getD_none]
          rw [hcs, e0, e1, e2, hp]
          rfl

theorem filterMap_congr' {α β : Type} (f g : α → Option β) :
    ∀ l : List α, (∀ a ∈ l, f a = g a) →
      l.filterMap f = l.filterMap g := by
  intro l
  induction l with
  | nil => intro _; rfl
  | cons a t ih =>
    intro h
    rw [List.filterMap_cons, List.filterMap_cons,
      h a (List.mem_cons_self a t),
      ih (fun b hb => h b (List.mem_cons_of_mem a hb))]

theorem filterMap_map' {α β γ : Type} (f : α → β) (g : β → Option γ) :
    ∀ l : List α, (l.map f).filterMap g =
      l.filterMap (fun a => g (f a)) := by
  intro l
  induction l with
  | nil => rfl
  | cons a t ih =>
    rw [List.map_cons, List.filterMap_cons, List.filterMap_cons, ih]

/-- Claim C1: on well-formed input — a `docWF` document together with
its rendered markup — the BeautifulSoup path and the regex-fallback path
produce identical `QuestionRecord` sequences. -/
theorem c1_path_equivalence (doc : Doc) (h : docWF doc = true) :
    extractQuestionsBs4 doc = extractQuestionsRx (renderDoc doc) := by
  have hrows : ∀ row ∈ doc, rowWF row = true := by
    simp only [docWF, List.all_eq_true] at h
    exact h
  unfold extractQuestionsBs4 extractQuestionsRx reTags
  rw [docWF_reTrs h, List.map_map, filterMap_map']
  exact filterMap_congr' _ _ doc
    (fun row hrow => (rxRow_renders (hrows row hrow)).symm)

/-- The path-equivalence theorem applied to the concrete two-row
document `wDoc`: its hypothesis holds by evaluation. -/
theorem c1_witness :
    docWF wDoc = true ∧
      extractQuestionsBs4 wDoc = extractQuestionsRx (renderDoc wDoc) :=
  ⟨by decide, c1_path_equivalence wDoc (by decide)⟩

end QParse
